import Mathlib

/-!
Verification of the HighPerfOrderBook matching engine core.

This file gives a shallow embedding of the C++ sources
(`include/order_types.h`, `include/order_book.h`, `include/lock_free_queue.h`)
and proves or refutes the properties the specification states about them.

Modelling conventions:
* `uint32_t` values are `Nat` reduced modulo `2 ^ 32` at each mutation
  (`wrap32`, `U32`); `int32_t` deltas are `Int`.
* The template parameter `PriceType` (instantiated with `double` by the
  driver and the tests) becomes a type `P` with a `LinearOrder` and a `Zero`;
  the witnesses instantiate `P` with `Int`.  NaN prices are outside this
  embedding (a NaN never compares, so `std::map` behaviour on NaN keys is
  unspecified anyway).
* `std::map<PriceType, PriceLevel>` becomes a list of key/value pairs kept in
  strictly ascending key order; `begin()..end()` iteration is list recursion.
* Wall-clock timestamps do not influence any book behaviour; they are
  modelled as the constant 0.
* Order ids (`std::array<char, 16>` holding a NUL-terminated string) are
  modelled as `String`; `set_id` truncates to the 15-character payload.
-/

namespace HPOrderBook

/-- `2 ^ 32`, the modulus of `uint32_t` arithmetic. -/
def U32 : Nat := 2 ^ 32

/-- `2 ^ 64`, the modulus of `uint64_t` arithmetic. -/
def U64 : Nat := 2 ^ 64

/-- Reduce an integer into `uint32_t` range, as C++ unsigned wraparound does. -/
def wrap32 (x : Int) : Nat := (x % (U32 : Int)).toNat

/-- The value of a `uint32_t` (given as a `Nat`) after conversion to
`int32_t`, as in `deltas[batch_size] = order.quantity` in
`process_limit_orders_batch` (two's-complement wraparound). -/
def toInt32 (q : Nat) : Int :=
  if q % U32 < 2 ^ 31 then (q % U32 : Int) else (q % U32 : Int) - (U32 : Int)

/-- `enum class Side` from `order_types.h`. -/
inductive Side : Type where
  | BUY : Side
  | SELL : Side
deriving DecidableEq, Repr

/-- `enum class OrderType` from `order_types.h`. -/
inductive OrderType : Type where
  | LIMIT : OrderType
  | MARKET : OrderType
  | IOC : OrderType
deriving DecidableEq, Repr

/-- `Order::set_id`: copy at most `MAX_ID_LENGTH - 1 = 15` characters and
NUL-terminate.  On the `String` model this is truncation to 15 characters. -/
def setId (s : String) : String := String.mk (s.data.take 15)

/-- `struct Order` from `order_types.h` (the 16-byte id array holds a
NUL-terminated string, modelled as `String`). -/
structure Order (P : Type) where
  id : String
  price : P
  quantity : Nat
  side : Side
  type : OrderType
  timestamp : Nat
deriving DecidableEq, Repr

/-- `struct PriceLevel` from `order_types.h`. -/
structure PriceLevel (P : Type) where
  price : P
  total_quantity : Nat
  order_count : Nat
  padding : Nat
deriving DecidableEq, Repr

/-- `PriceLevel::update_quantity`: `total_quantity += delta` (unsigned
wraparound) and `order_count += 1`, for any `int32_t` delta. -/
def PriceLevel.update_quantity {P : Type} (l : PriceLevel P) (delta : Int) :
    PriceLevel P :=
  { l with
    total_quantity := wrap32 ((l.total_quantity : Int) + delta)
    order_count := (l.order_count + 1) % U32 }

/-- `MatchResult::set_counterparty_id`: truncate to 15 characters, as
`set_id` does. -/
def setCounterpartyId (s : String) : String := String.mk (s.data.take 15)

/-- `struct MatchResult` from `order_types.h`. -/
structure MatchResult (P : Type) where
  quantity : Nat
  price : P
  counterparty_id : String
deriving DecidableEq, Repr

section BatchOps

variable {P : Type}

/-- The store of `PriceLevel` objects a batch update acts on; a level handle
(`PriceLevel*`) is `Option Nat`, an index into this store (`none` = null). -/
abbrev LevelHeap (P : Type) : Type := List (PriceLevel P)

/-- A default `PriceLevel` used only for out-of-range `getD` reads; all
theorems below are insensitive to its value. -/
def dfltLevel [Zero P] : PriceLevel P := ⟨0, 0, 0, 0⟩

/-- The load phase of `BatchOperations::process_quantity_updates` for one
lane: `quantities[i]` is the handled level's `total_quantity`, or 0 for a
null handle. -/
def loadTQ [Zero P] (heap : LevelHeap P) (h : Option Nat) : Nat :=
  match h with
  | some j => (heap.getD j dfltLevel).total_quantity
  | none => 0

/-- The load phase for one lane: `counts[i]` is the handled level's
`order_count`, or 0 for a null handle. -/
def loadOC [Zero P] (heap : LevelHeap P) (h : Option Nat) : Nat :=
  match h with
  | some j => (heap.getD j dfltLevel).order_count
  | none => 0

/-- The vectorized compute phase for one `(handle, delta)` lane: the pair
of lane values `(quantities[i] + deltas[i], counts[i] + 1)` (in `uint32_t`
arithmetic) that the store phase will write back, together with the
handle. -/
def laneVals [Zero P] (heap : LevelHeap P) (hd : Option Nat × Int) :
    Option Nat × Nat × Nat :=
  (hd.1, wrap32 ((loadTQ heap hd.1 : Int) + hd.2), (loadOC heap hd.1 + 1) % U32)

/-- The store phase of `process_quantity_updates`: write the precomputed
`(total_quantity, order_count)` lane values back through the non-null
handles, in lane order.  `price` and `padding` are not written. -/
def vecStore [Zero P] : LevelHeap P → List (Option Nat × Nat × Nat) → LevelHeap P
  | heap, [] => heap
  | heap, (none, _, _) :: rest => vecStore heap rest
  | heap, (some j, qv, cv) :: rest =>
      vecStore
        (heap.set j
          { heap.getD j dfltLevel with total_quantity := qv, order_count := cv })
        rest

/-- `BatchOperations::process_quantity_updates` from `order_types.h`:
load all lane values from the current levels, add the deltas (vectorized,
`uint32_t` wraparound) and `1` to every `order_count`, then store the lanes
`0 .. count-1` back through the non-null handles.  All loads happen before
all stores, exactly as in the source. -/
def process_quantity_updates [Zero P] (heap : LevelHeap P)
    (handles : List (Option Nat)) (deltas : List Int) (count : Nat) :
    LevelHeap P :=
  let lanes := (List.range count).map fun i => (handles.getD i none, deltas.getD i 0)
  vecStore heap (lanes.map (laneVals heap))

/-- Scalar reference semantics of the batch update, following the
specification: for each `(level_handle, delta)` pair in order,
`level.total_quantity += delta` and `level.order_count += 1`; null handles
are no-ops. -/
def scalarRun [Zero P] : LevelHeap P → List (Option Nat × Int) → LevelHeap P
  | heap, [] => heap
  | heap, (none, _) :: rest => scalarRun heap rest
  | heap, (some j, d) :: rest =>
      scalarRun (heap.set j ((heap.getD j dfltLevel).update_quantity d)) rest

/-- The scalar semantics applied to a `(handles, deltas, count)` batch. -/
def scalar_quantity_updates [Zero P] (heap : LevelHeap P)
    (handles : List (Option Nat)) (deltas : List Int) (count : Nat) :
    LevelHeap P :=
  scalarRun heap
    ((List.range count).map fun i => (handles.getD i none, deltas.getD i 0))

/-- `BatchOperations::process_single_update` from `order_types.h`.  The NEON
code loads `{total_quantity, order_count}` as two `uint32_t` lanes and adds
`vcreate_u32((uint64_t)delta | (1ULL << 32))`.  Because `(uint64_t)delta`
sign-extends a negative `int32_t`, the high lane is `1` for `delta >= 0`
but `0xFFFFFFFF` for `delta < 0`. -/
def process_single_update {P : Type} (level : Option (PriceLevel P))
    (delta : Int) : Option (PriceLevel P) :=
  match level with
  | none => none
  | some l =>
      let low : Nat := wrap32 delta
      let high : Nat := (((delta % (U64 : Int)).toNat) >>> 32) ||| 1
      some { l with
        total_quantity := (l.total_quantity + low) % U32
        order_count := (l.order_count + high) % U32 }

end BatchOps

section Book

variable {P : Type} [LinearOrder P] [Zero P]

/-- One side of the book: `std::map<PriceType, PriceLevel>` modelled as a
key/value list in strictly ascending key order. -/
abbrev SideBook (P : Type) : Type := List (P × PriceLevel P)

/-- `book.try_emplace(price, PriceLevel{price, 0, 0, 0})`: insert a fresh
zero level at `price` if the key is absent; no effect if present. -/
def tryEmplace (book : SideBook P) (key : P) (v : PriceLevel P) : SideBook P :=
  match book with
  | [] => [(key, v)]
  | (k, l) :: rest =>
      if key < k then (key, v) :: (k, l) :: rest
      else if key = k then (k, l) :: rest
      else (k, l) :: tryEmplace rest key v

/-- Mutation through the iterator returned by `try_emplace`: apply `f` to
the mapped value at `key` (first occurrence). -/
def applyAt (book : SideBook P) (key : P) (f : PriceLevel P → PriceLevel P) :
    SideBook P :=
  match book with
  | [] => []
  | (k, l) :: rest =>
      if k = key then (k, f l) :: rest else (k, l) :: applyAt rest key f

/-- The full book state: both side maps.  (The lock, the unused ingress
queue member and the unused order-id counter carry no book semantics.) -/
structure BookState (P : Type) where
  bids : SideBook P
  asks : SideBook P

/-- A freshly constructed `OrderBook`. -/
def emptyBook : BookState P := ⟨[], []⟩

/-- The side book an operation on `side` works with (`bids_` or `asks_`). -/
def sideBookOf (st : BookState P) : Side → SideBook P
  | Side.BUY => st.bids
  | Side.SELL => st.asks

/-- The opposing side a market order consumes from. -/
def oppositeSide : Side → Side
  | Side.BUY => Side.SELL
  | Side.SELL => Side.BUY

/-- The effect of `process_limit_orders_batch` on one side map for one
order: `try_emplace` the zero level, then route the quantity (converted to
`int32_t`) and the `order_count` increment through the batch updater. -/
def addToBook (book : SideBook P) (p : P) (q : Nat) : SideBook P :=
  applyAt (tryEmplace book p ⟨p, 0, 0, 0⟩) p
    (fun l => l.update_quantity (toInt32 q))

/-- `OrderBook::add_limit_order`: build the `Order` record, run it through
the (single-element) limit batch, return `true` unconditionally. -/
def add_limit_order (st : BookState P) (side : Side) (price : P)
    (quantity : Nat) (id : String) : BookState P × Bool :=
  let order : Order P :=
    { id := setId id, price := price, quantity := quantity, side := side
      type := OrderType.LIMIT, timestamp := 0 }
  match order.side with
  | Side.BUY => ({ st with bids := addToBook st.bids order.price order.quantity }, true)
  | Side.SELL => ({ st with asks := addToBook st.asks order.price order.quantity }, true)

/-- The matching loop of `OrderBook::match_market_order_simd`: walk the
opposing book in iteration (ascending-key) order while quantity remains;
at each level match `min(remaining, total_quantity)`, record a
`MatchResult` and apply `update_quantity(-matched)` when positive, and
erase the level when its quantity reaches zero. -/
def matchLoop (id : String) : Nat → SideBook P →
    List (MatchResult P) × SideBook P
  | _, [] => ([], [])
  | remaining, (k, lvl) :: rest =>
      if remaining = 0 then ([], (k, lvl) :: rest)
      else
        -- matched = min remaining lvl.total_quantity, written out in full
        if 0 < min remaining lvl.total_quantity then
          if (lvl.update_quantity
                (-(min remaining lvl.total_quantity : Int))).total_quantity = 0 then
            -- fill recorded, level drained: erase it
            ({ quantity := min remaining lvl.total_quantity, price := lvl.price
               counterparty_id := setCounterpartyId id } ::
                (matchLoop id (remaining - min remaining lvl.total_quantity) rest).1,
             (matchLoop id (remaining - min remaining lvl.total_quantity) rest).2)
          else
            -- fill recorded, level partially consumed: keep it
            ({ quantity := min remaining lvl.total_quantity, price := lvl.price
               counterparty_id := setCounterpartyId id } ::
                (matchLoop id (remaining - min remaining lvl.total_quantity) rest).1,
             (k, lvl.update_quantity (-(min remaining lvl.total_quantity : Int))) ::
                (matchLoop id (remaining - min remaining lvl.total_quantity) rest).2)
        else
          -- matched = 0 forces total_quantity = 0: no fill, erase the level
          matchLoop id remaining rest

/-- `OrderBook::process_market_order`: build the aggressing `Order` (id
truncated by `set_id`), then run `match_market_order_simd` against the
opposing book. -/
def process_market_order (st : BookState P) (side : Side) (quantity : Nat)
    (id : String) : List (MatchResult P) × BookState P :=
  let order : Order P :=
    { id := setId id, price := 0, quantity := quantity, side := side
      type := OrderType.MARKET, timestamp := 0 }
  match order.side with
  | Side.BUY =>
      let res := matchLoop order.id order.quantity st.asks
      (res.1, { st with asks := res.2 })
  | Side.SELL =>
      let res := matchLoop order.id order.quantity st.bids
      (res.1, { st with bids := res.2 })

/-- `std::max_element` with comparator `a.first < b.first` over one side
map: the first element no later element strictly exceeds. -/
def maxElement (book : SideBook P) : Option (P × PriceLevel P) :=
  match book with
  | [] => none
  | x :: xs => some (xs.foldl (fun best y => if best.1 < y.1 then y else best) x)

/-- `std::min_element` with comparator `a.first < b.first` over one side
map. -/
def minElement (book : SideBook P) : Option (P × PriceLevel P) :=
  match book with
  | [] => none
  | x :: xs => some (xs.foldl (fun best y => if y.1 < best.1 then y else best) x)

/-- `OrderBook::get_best_bid`: 0 when `bids_` is empty, otherwise the
`max_element` key. -/
def get_best_bid (st : BookState P) : P :=
  match maxElement st.bids with
  | none => 0
  | some e => e.1

/-- `OrderBook::get_best_ask`: 0 when `asks_` is empty, otherwise the
`min_element` key. -/
def get_best_ask (st : BookState P) : P :=
  match minElement st.asks with
  | none => 0
  | some e => e.1

/-- `OrderBook::get_best_prices`. -/
def get_best_prices (st : BookState P) : P × P :=
  (get_best_bid st, get_best_ask st)

/-- Ordered insertion used to model `std::sort` with a boolean
less-or-equal comparator. -/
def insertS {α : Type} (leb : α → α → Bool) (x : α) : List α → List α
  | [] => [x]
  | y :: ys => if leb x y then x :: y :: ys else y :: insertS leb x ys

/-- Insertion sort modelling `std::sort` (the keys it is applied to are
pairwise distinct, so any comparison sort yields the same list). -/
def insSort {α : Type} (leb : α → α → Bool) : List α → List α
  | [] => []
  | x :: xs => insertS leb x (insSort leb xs)

/-- `OrderBook::get_depth`: copy the requested side, sort it descending
(bids) or ascending (asks) by key, and return the first `levels` mapped
`PriceLevel` values. -/
def get_depth (st : BookState P) (side : Side) (levels : Nat) :
    List (PriceLevel P) :=
  let book := sideBookOf st side
  let sorted :=
    match side with
    | Side.BUY => insSort (fun a b : P × PriceLevel P => decide (b.1 ≤ a.1)) book
    | Side.SELL => insSort (fun a b : P × PriceLevel P => decide (a.1 ≤ b.1)) book
  (sorted.take levels).map (fun e => e.2)

/-- The `std::map` representation invariant: keys strictly ascending in
iteration order. -/
def SortedKeys (book : SideBook P) : Prop :=
  (book.map Prod.fst).Pairwise (fun a b => a < b)

/-- Every stored level's redundant `price` field equals its map key (the
engine always constructs levels as `PriceLevel{price, 0, 0, 0}` at key
`price` and never writes the field again). -/
def KeysMatch (book : SideBook P) : Prop :=
  ∀ e ∈ book, e.2.price = e.1

/-- The representation invariant of a whole book state. -/
def BookInv (st : BookState P) : Prop :=
  SortedKeys st.bids ∧ SortedKeys st.asks ∧ KeysMatch st.bids ∧ KeysMatch st.asks

end Book

section Ops

variable {P : Type} [LinearOrder P] [Zero P]

/-- One public mutating operation of the engine. -/
inductive Op (P : Type) where
  | addLimit : Side → P → Nat → String → Op P
  | market : Side → Nat → String → Op P

/-- Apply one operation to the book state, discarding the return value. -/
def runOp (st : BookState P) : Op P → BookState P
  | Op.addLimit s p q id => (add_limit_order st s p q id).1
  | Op.market s q id => (process_market_order st s q id).2

/-- Run a sequence of operations from a state. -/
def runFrom (st : BookState P) : List (Op P) → BookState P
  | [] => st
  | op :: rest => runFrom (runOp st op) rest

/-- Run a sequence of operations from a fresh book. -/
def run (ops : List (Op P)) : BookState P := runFrom emptyBook ops

/-- Total quantity of the limit orders added on a given side by a
sequence of operations. -/
def addedOn (s : Side) : List (Op P) → Nat
  | [] => 0
  | Op.addLimit s2 _ q _ :: rest =>
      (if s2 = s then q else 0) + addedOn s rest
  | Op.market _ _ _ :: rest => addedOn s rest

/-- Sum of the quantities of a match list. -/
def sumQ {P : Type} (ms : List (MatchResult P)) : Nat :=
  (ms.map (fun m => m.quantity)).sum

/-- Sum of `total_quantity` over all of a side book's levels. -/
def sumTQ (book : SideBook P) : Nat :=
  (book.map (fun e => e.2.total_quantity)).sum

/-- Run a sequence of operations, also accumulating the matched quantity
consumed from the bids and from the asks. -/
def runTrace : BookState P → List (Op P) → BookState P × Nat × Nat
  | st, [] => (st, 0, 0)
  | st, Op.addLimit s p q id :: rest =>
      runTrace (add_limit_order st s p q id).1 rest
  | st, Op.market s q id :: rest =>
      let res := process_market_order st s q id
      let tr := runTrace res.2 rest
      match s with
      | Side.SELL => (tr.1, sumQ res.1 + tr.2.1, tr.2.2)
      | Side.BUY => (tr.1, tr.2.1, sumQ res.1 + tr.2.2)

/-- First-occurrence lookup of the level stored at a key. -/
def lookupLevel (book : SideBook P) (p : P) : Option (PriceLevel P) :=
  match book with
  | [] => none
  | (k, l) :: rest => if k = p then some l else lookupLevel rest p

/-- Number of `add_limit_order` calls at a given side and price in a
sequence of operations. -/
def addsAt (s : Side) (p : P) : List (Op P) → Nat
  | [] => 0
  | Op.addLimit s2 p2 _ _ :: rest =>
      (if s2 = s ∧ p2 = p then 1 else 0) + addsAt s p rest
  | Op.market _ _ _ :: rest => addsAt s p rest

/-- Number of market orders, over a whole run, that emit a fill at price
`p` on side `s` after which the level still rests in the book (a fill
that only partially consumes the level). -/
def survivingFillsAt (s : Side) (p : P) : BookState P → List (Op P) → Nat
  | _, [] => 0
  | st, Op.addLimit s2 p2 q id :: rest =>
      survivingFillsAt s p (add_limit_order st s2 p2 q id).1 rest
  | st, Op.market m q id :: rest =>
      let res := process_market_order st m q id
      (if oppositeSide m = s ∧ (lookupLevel (sideBookOf res.2 s) p).isSome ∧
          res.1.any (fun mr => decide (mr.price = p))
        then 1 else 0) + survivingFillsAt s p res.2 rest

/-- Instrumented run for one fixed `(side, price)` key: thread the book
state and a pair `(adds, fills)` counting, since the level at that key was
last created, the limit orders added to it and the market fills that
partially consumed it.  Both counters restart when the level is erased or
re-created. -/
def ghostRun (s : Side) (p : P) :
    BookState P → Nat × Nat → List (Op P) → BookState P × Nat × Nat
  | st, g, [] => (st, g)
  | st, g, Op.addLimit s2 p2 q id :: rest =>
      let g2 :=
        if s2 = s ∧ p2 = p then
          match lookupLevel (sideBookOf st s) p with
          | some _ => (g.1 + 1, g.2)
          | none => (1, 0)
        else g
      ghostRun s p (add_limit_order st s2 p2 q id).1 g2 rest
  | st, g, Op.market m q id :: rest =>
      let res := process_market_order st m q id
      let g2 :=
        if oppositeSide m = s then
          match lookupLevel (sideBookOf res.2 s) p with
          | some _ =>
              if res.1.any (fun mr => decide (mr.price = p)) then (g.1, g.2 + 1)
              else g
          | none => (0, 0)
        else g
      ghostRun s p res.2 g2 rest

end Ops

/-- A concrete operation sequence used to analyse `order_count`
accounting: add 5 at ask 100, drain that level with a market buy (which
erases it), then add 7 at ask 100 again (the level is re-created). -/
def c10ops : List (Op Int) :=
  [Op.addLimit Side.SELL 100 5 "A", Op.market Side.BUY 5 "M",
   Op.addLimit Side.SELL 100 7 "B"]

section Ring

variable {T : Type} [Inhabited T]

/-- `LockFreeQueue<T, N>` state: `head_`, `tail_` (64-bit tickets) and the
slot buffer of `(data, sequence)` pairs. -/
structure LFQ (T : Type) where
  head : Nat
  tail : Nat
  buffer : List (T × Nat)

/-- The `EMPTY_SEQUENCE` constant `~0ULL` from `lock_free_queue.h`. -/
def EMPTY_SEQUENCE : Nat := U64 - 1

/-- The `LockFreeQueue` constructor: every slot sequence is stored as
`EMPTY_SEQUENCE`. -/
def LFQ.make (N : Nat) : LFQ T :=
  ⟨0, 0, List.replicate N (default, EMPTY_SEQUENCE)⟩

/-- `LockFreeQueue::try_enqueue` (sequential semantics; the CAS of the
uncontended path succeeds): read the slot at `tail & BUFFER_MASK`; when its
sequence equals `tail`, claim the ticket, write the payload and publish
`tail + 1`; otherwise return `false`. -/
def LFQ.try_enqueue (q : LFQ T) (x : T) : LFQ T × Bool :=
  let tail := q.tail
  let idx := tail &&& (q.buffer.length - 1)
  let node := q.buffer.getD idx (default, 0)
  if node.2 = tail then
    ({ q with
        tail := (tail + 1) % U64
        buffer := q.buffer.set idx (x, (tail + 1) % U64) }, true)
  else (q, false)

end Ring

/-! ## Arithmetic helper lemmas -/

theorem U32_pos : 0 < U32 := by decide

theorem wrap32_lt (x : Int) : wrap32 x < U32 := by
  unfold wrap32 U32
  omega

theorem wrap32_coe_of_lt {t : Nat} (h : t < U32) : wrap32 (t : Int) = t := by
  unfold wrap32 at *
  unfold U32 at *
  omega

theorem wrap32_add_toInt32 (t q : Nat) :
    wrap32 ((t : Int) + toInt32 q) = (t + q) % U32 := by
  unfold wrap32 toInt32 at *
  unfold U32 at *
  split <;> omega

theorem wrap32_sub_of_le {t m : Nat} (hm : m ≤ t) (h : t < U32) :
    wrap32 ((t : Int) - (m : Int)) = t - m := by
  unfold wrap32 at *
  unfold U32 at *
  omega

theorem update_quantity_total {P : Type} (l : PriceLevel P) (d : Int) :
    (l.update_quantity d).total_quantity = wrap32 ((l.total_quantity : Int) + d) :=
  rfl

theorem update_quantity_count {P : Type} (l : PriceLevel P) (d : Int) :
    (l.update_quantity d).order_count = (l.order_count + 1) % U32 :=
  rfl

theorem update_quantity_price {P : Type} (l : PriceLevel P) (d : Int) :
    (l.update_quantity d).price = l.price :=
  rfl

/-! ## C1 — match price monotonicity -/

/-- Claim C1: the matching is claimed to walk opposing levels
best-price-first, so that a Sell market order consumes the highest bid
first and returns non-increasing prices.  The code iterates `bids_` with
the natural ascending `begin()..end()` order instead: on the book built by
`add_limit(Buy, 99, 500); add_limit(Buy, 100, 500)`, the market order
`market(Sell, 700)` fills 500 at price 99 and then 200 at price 100 — a
strictly increasing price list, which is not non-increasing, and not the
best-price-first fill `[500 at 100, 200 at 99]` the claim requires. -/
theorem C1_sell_walks_lowest_bid_first :
    (process_market_order
        (run [Op.addLimit Side.BUY (99 : Int) 500 "A",
              Op.addLimit Side.BUY (100 : Int) 500 "B"])
        Side.SELL 700 "M").1 =
      [{ quantity := 500, price := 99, counterparty_id := "M" },
       { quantity := 200, price := 100, counterparty_id := "M" }] ∧
    ¬ List.Chain' (fun a b : Int => b ≤ a) [(99 : Int), 100] := by
  constructor
  · rfl
  · intro h
    rw [List.chain'_cons] at h
    exact absurd h.1 (by decide)

/-! ## C2 — ingress ring initialization and first enqueue -/

/-- Claim C2: the claim (and the specification) state that slot `i` is
initialized with sequence `i`, so that `try_enqueue` on a freshly
constructed, non-full ring succeeds.  The constructor instead stores
`EMPTY_SEQUENCE = ~0ULL` into every slot, so the first `try_enqueue`
compares sequence `2^64 - 1` with ticket `0`, fails the protocol check and
returns `false` although the ring is empty. -/
theorem C2_fresh_ring_enqueue_fails :
    ((LFQ.make 4 : LFQ Nat).buffer.map (fun n => n.2) =
        List.replicate 4 (U64 - 1)) ∧
    ((LFQ.make 4 : LFQ Nat).try_enqueue 7).2 = false := by
  constructor
  · rfl
  · rfl

/-! ## C3 — add_limit_order validation -/

/-- Claim C3 counterexample: `add_limit_order` with `quantity = 0` is
claimed to return `false`; the code returns `true` (it performs no
validation at all). -/
theorem C3_counterexample :
    (add_limit_order (emptyBook : BookState Int) Side.BUY 100 0 "A").2 ≠ false := by
  decide

/-- Claim C3 (amended): `add_limit_order` returns `true` on every call —
the source performs no precondition validation, so invalid orders
(`quantity = 0` included) are accepted rather than reported via a `false`
return. -/
theorem C3_add_limit_order_always_true {P : Type} [LinearOrder P] [Zero P]
    (st : BookState P) (side : Side) (price : P) (quantity : Nat)
    (id : String) :
    (add_limit_order st side price quantity id).2 = true := by
  unfold add_limit_order
  cases side <;> rfl

/-! ## C7 — best prices -/

section BestPrices

variable {P : Type} [LinearOrder P] [Zero P]
theorem foldl_max_spec (xs : List (P × PriceLevel P)) (x : P × PriceLevel P) :
    xs.foldl (fun best y => if best.1 < y.1 then y else best) x ∈ x :: xs ∧
    ∀ z ∈ x :: xs,
      z.1 ≤ (xs.foldl (fun best y => if best.1 < y.1 then y else best) x).1 := by
  induction xs generalizing x with
  | nil =>
    refine ⟨by simp, ?_⟩
    intro z hz
    rw [List.mem_singleton] at hz
    subst hz
    simp
  | cons y ys ih =>
    have h := ih (if x.1 < y.1 then y else x)
    simp only [List.foldl_cons]
    constructor
    · rcases List.mem_cons.mp h.1 with h1 | h1
      · rw [h1]
        split
        · simp
        · simp
      · simp [h1]
    · intro z hz
      have hx := h.2 (if x.1 < y.1 then y else x) (List.mem_cons_self _ _)
      rcases List.mem_cons.mp hz with hz | hz
      · subst hz
        by_cases hxy : z.1 < y.1
        · rw [if_pos hxy] at hx ⊢
          exact le_trans (le_of_lt hxy) hx
        · rw [if_neg hxy] at hx ⊢
          exact hx
      · rcases List.mem_cons.mp hz with hz2 | hz2
        · subst hz2
          by_cases hxy : x.1 < z.1
          · rw [if_pos hxy] at hx ⊢
            exact hx
          · rw [if_neg hxy] at hx ⊢
            exact le_trans (le_of_not_lt hxy) hx
        · exact h.2 z (List.mem_cons_of_mem _ hz2)

theorem foldl_min_spec (xs : List (P × PriceLevel P)) (x : P × PriceLevel P) :
    xs.foldl (fun best y => if y.1 < best.1 then y else best) x ∈ x :: xs ∧
    ∀ z ∈ x :: xs,
      (xs.foldl (fun best y => if y.1 < best.1 then y else best) x).1 ≤ z.1 := by
  induction xs generalizing x with
  | nil =>
    refine ⟨by simp, ?_⟩
    intro z hz
    rw [List.mem_singleton] at hz
    subst hz
    simp
  | cons y ys ih =>
    have h := ih (if y.1 < x.1 then y else x)
    simp only [List.foldl_cons]
    constructor
    · rcases List.mem_cons.mp h.1 with h1 | h1
      · rw [h1]
        split
        · simp
        · simp
      · simp [h1]
    · intro z hz
      have hx := h.2 (if y.1 < x.1 then y else x) (List.mem_cons_self _ _)
      rcases List.mem_cons.mp hz with hz | hz
      · subst hz
        by_cases hxy : y.1 < z.1
        · rw [if_pos hxy] at hx ⊢
          exact le_trans hx (le_of_lt hxy)
        · rw [if_neg hxy] at hx ⊢
          exact hx
      · rcases List.mem_cons.mp hz with hz2 | hz2
        · subst hz2
          by_cases hxy : z.1 < x.1
          · rw [if_pos hxy] at hx ⊢
            exact hx
          · rw [if_neg hxy] at hx ⊢
            exact le_trans hx (le_of_not_lt hxy)
        · exact h.2 z (List.mem_cons_of_mem _ hz2)

/-- Claim C7: `get_best_prices` returns the maximum bid key and the minimum
ask key, with the sentinel 0 substituted for an empty side.  Stated for
every book state (so in particular for every reachable one). -/
theorem C7_best_prices (st : BookState P) :
    (st.bids = [] → (get_best_prices st).1 = 0) ∧
    (st.bids ≠ [] →
      (∃ e ∈ st.bids, (get_best_prices st).1 = e.1) ∧
      ∀ e ∈ st.bids, e.1 ≤ (get_best_prices st).1) ∧
    (st.asks = [] → (get_best_prices st).2 = 0) ∧
    (st.asks ≠ [] →
      (∃ e ∈ st.asks, (get_best_prices st).2 = e.1) ∧
      ∀ e ∈ st.asks, (get_best_prices st).2 ≤ e.1) := by
  refine ⟨?_, ?_, ?_, ?_⟩
  · intro h
    simp [get_best_prices, get_best_bid, maxElement, h]
  · intro h
    cases hb : st.bids with
    | nil => exact absurd hb h
    | cons x xs =>
      have hspec := foldl_max_spec xs x
      have hval : (get_best_prices st).1 =
          (xs.foldl (fun best y => if best.1 < y.1 then y else best) x).1 := by
        simp [get_best_prices, get_best_bid, maxElement, hb]
      refine ⟨⟨_, hspec.1, hval⟩, ?_⟩
      intro e he
      rw [hval]
      exact hspec.2 e he
  · intro h
    simp [get_best_prices, get_best_ask, minElement, h]
  · intro h
    cases hb : st.asks with
    | nil => exact absurd hb h
    | cons x xs =>
      have hspec := foldl_min_spec xs x
      have hval : (get_best_prices st).2 =
          (xs.foldl (fun best y => if y.1 < best.1 then y else best) x).1 := by
        simp [get_best_prices, get_best_ask, minElement, hb]
      refine ⟨⟨_, hspec.1, hval⟩, ?_⟩
      intro e he
      rw [hval]
      exact hspec.2 e he

/-- Witness for C7 at a concrete two-level bid book and one-level ask
book: the best bid is the maximal bid key. -/
theorem C7_best_prices_witness :
    (∃ e ∈ [((99 : Int), (⟨99, 5, 1, 0⟩ : PriceLevel Int)), (100, ⟨100, 7, 1, 0⟩)],
        (get_best_prices
          (⟨[(99, ⟨99, 5, 1, 0⟩), (100, ⟨100, 7, 1, 0⟩)],
            [(101, ⟨101, 3, 1, 0⟩)]⟩ : BookState Int)).1 = e.1) ∧
    ∀ e ∈ [((99 : Int), (⟨99, 5, 1, 0⟩ : PriceLevel Int)), (100, ⟨100, 7, 1, 0⟩)],
      e.1 ≤ (get_best_prices
          (⟨[(99, ⟨99, 5, 1, 0⟩), (100, ⟨100, 7, 1, 0⟩)],
            [(101, ⟨101, 3, 1, 0⟩)]⟩ : BookState Int)).1 :=
  (C7_best_prices (⟨[(99, ⟨99, 5, 1, 0⟩), (100, ⟨100, 7, 1, 0⟩)],
      [(101, ⟨101, 3, 1, 0⟩)]⟩ : BookState Int)).2.1 (by decide)

end BestPrices

/-! ## C5 — match sum bound -/

section MatchSums

variable {P : Type} [LinearOrder P] [Zero P]

theorem sumQ_cons {Q : Type} (m : MatchResult Q) (ms : List (MatchResult Q)) :
    sumQ (m :: ms) = m.quantity + sumQ ms := by
  simp [sumQ]

theorem sumTQ_cons (e : P × PriceLevel P) (b : SideBook P) :
    sumTQ (e :: b) = e.2.total_quantity + sumTQ b := by
  simp [sumTQ]

theorem matchLoop_sums (id : String) (q : Nat) (book : SideBook P)
    (hb : ∀ e ∈ book, e.2.total_quantity < U32) :
    sumQ (matchLoop id q book).1 = min q (sumTQ book) ∧
    sumQ (matchLoop id q book).1 + sumTQ (matchLoop id q book).2 = sumTQ book := by
  induction book generalizing q with
  | nil => simp [matchLoop, sumQ, sumTQ]
  | cons hd tl ih =>
    obtain ⟨k, lvl⟩ := hd
    have hhd : lvl.total_quantity < U32 := hb (k, lvl) (by simp)
    have htl : ∀ e ∈ tl, e.2.total_quantity < U32 := fun e he => hb e (by simp [he])
    by_cases h0 : q = 0
    · subst h0
      simp [matchLoop, sumQ]
    · simp only [matchLoop, if_neg h0]
      by_cases hpos : 0 < min q lvl.total_quantity
      · rw [if_pos hpos]
        have htq : (lvl.update_quantity
              (-(min q lvl.total_quantity : Int))).total_quantity =
            lvl.total_quantity - min q lvl.total_quantity := by
          rw [update_quantity_total]
          unfold wrap32 U32
          unfold U32 at hhd
          omega
        rw [htq]
        have hrec := ih (q - min q lvl.total_quantity) htl
        by_cases hz : lvl.total_quantity - min q lvl.total_quantity = 0
        · rw [if_pos hz]
          simp only [sumQ_cons, sumTQ_cons]
          omega
        · rw [if_neg hz]
          simp only [sumQ_cons, sumTQ_cons, htq]
          omega
      · rw [if_neg hpos]
        have hrec := ih q htl
        simp only [sumTQ_cons]
        omega

theorem matchLoop_quantity_pos (id : String) (q : Nat) (book : SideBook P) :
    ∀ m ∈ (matchLoop id q book).1, 0 < m.quantity := by
  induction book generalizing q with
  | nil =>
    intro m hm
    simp [matchLoop] at hm
  | cons hd tl ih =>
    obtain ⟨k, lvl⟩ := hd
    intro m hm
    by_cases h0 : q = 0
    · subst h0
      simp [matchLoop] at hm
    · simp only [matchLoop, if_neg h0] at hm
      by_cases hpos : 0 < min q lvl.total_quantity
      · rw [if_pos hpos] at hm
        split at hm
        · rcases List.mem_cons.mp hm with hm2 | hm2
          · subst hm2
            exact hpos
          · exact ih _ m hm2
        · rcases List.mem_cons.mp hm with hm2 | hm2
          · subst hm2
            exact hpos
          · exact ih _ m hm2
      · rw [if_neg hpos] at hm
        exact ih q m hm

theorem sumQ_zero_of_all_pos {Q : Type} (ms : List (MatchResult Q))
    (hpos : ∀ m ∈ ms, 0 < m.quantity) (h : sumQ ms = 0) : ms = [] := by
  cases ms with
  | nil => rfl
  | cons m ms =>
    rw [sumQ_cons] at h
    have := hpos m (by simp)
    omega

/-- Claim C5: the quantities in the list returned by
`process_market_order` sum to the minimum of the requested quantity and the
opposing liquidity available at the time of the call; with no opposing
liquidity the list is empty; the unfilled remainder only shrinks the
opposing book (it is dropped, not reinserted), and the same-side book is
untouched. -/
theorem C5_match_sum_bound (st : BookState P) (side : Side) (q : Nat)
    (id : String)
    (h : ∀ e ∈ sideBookOf st (oppositeSide side), e.2.total_quantity < U32) :
    sumQ (process_market_order st side q id).1 =
      min q (sumTQ (sideBookOf st (oppositeSide side))) ∧
    sumTQ (sideBookOf (process_market_order st side q id).2 (oppositeSide side)) =
      sumTQ (sideBookOf st (oppositeSide side)) -
        sumQ (process_market_order st side q id).1 ∧
    sideBookOf (process_market_order st side q id).2 side = sideBookOf st side ∧
    (sumTQ (sideBookOf st (oppositeSide side)) = 0 →
      (process_market_order st side q id).1 = []) := by
  cases side with
  | BUY =>
    simp only [process_market_order, sideBookOf, oppositeSide] at *
    have hs := matchLoop_sums (setId id) q st.asks h
    refine ⟨hs.1, by omega, by trivial, ?_⟩
    intro hz
    exact sumQ_zero_of_all_pos _ (matchLoop_quantity_pos _ _ _) (by omega)
  | SELL =>
    simp only [process_market_order, sideBookOf, oppositeSide] at *
    have hs := matchLoop_sums (setId id) q st.bids h
    refine ⟨hs.1, by omega, by trivial, ?_⟩
    intro hz
    exact sumQ_zero_of_all_pos _ (matchLoop_quantity_pos _ _ _) (by omega)

/-- Witness for C5: a Buy market order for 8 against a single ask level of
5 fills exactly `min 8 5 = 5`. -/
theorem C5_match_sum_bound_witness :
    sumQ (process_market_order
        (⟨[], [((100 : Int), ⟨100, 5, 1, 0⟩)]⟩ : BookState Int)
        Side.BUY 8 "M").1 =
      min 8 (sumTQ (sideBookOf
        (⟨[], [((100 : Int), ⟨100, 5, 1, 0⟩)]⟩ : BookState Int)
        (oppositeSide Side.BUY))) :=
  (C5_match_sum_bound _ Side.BUY 8 "M" (by decide)).1

end MatchSums

/-! ## Small-step equations for the book operations -/

section StepEquations

variable {P : Type} [LinearOrder P] [Zero P]

theorem al_BUY_state (st : BookState P) (p : P) (q : Nat) (id : String) :
    (add_limit_order st Side.BUY p q id).1 =
      { st with bids := addToBook st.bids p q } := rfl

theorem al_SELL_state (st : BookState P) (p : P) (q : Nat) (id : String) :
    (add_limit_order st Side.SELL p q id).1 =
      { st with asks := addToBook st.asks p q } := rfl

theorem pm_BUY_fst (st : BookState P) (q : Nat) (id : String) :
    (process_market_order st Side.BUY q id).1 =
      (matchLoop (setId id) q st.asks).1 := rfl

theorem pm_BUY_snd (st : BookState P) (q : Nat) (id : String) :
    (process_market_order st Side.BUY q id).2 =
      { st with asks := (matchLoop (setId id) q st.asks).2 } := rfl

theorem pm_SELL_fst (st : BookState P) (q : Nat) (id : String) :
    (process_market_order st Side.SELL q id).1 =
      (matchLoop (setId id) q st.bids).1 := rfl

theorem pm_SELL_snd (st : BookState P) (q : Nat) (id : String) :
    (process_market_order st Side.SELL q id).2 =
      { st with bids := (matchLoop (setId id) q st.bids).2 } := rfl

theorem withBids_bids (st : BookState P) (b : SideBook P) :
    ({ st with bids := b } : BookState P).bids = b := rfl

theorem withBids_asks (st : BookState P) (b : SideBook P) :
    ({ st with bids := b } : BookState P).asks = st.asks := rfl

theorem withAsks_asks (st : BookState P) (a : SideBook P) :
    ({ st with asks := a } : BookState P).asks = a := rfl

theorem withAsks_bids (st : BookState P) (a : SideBook P) :
    ({ st with asks := a } : BookState P).bids = st.bids := rfl

theorem mk_bids (b a : SideBook P) : (BookState.mk b a).bids = b := rfl

theorem mk_asks (b a : SideBook P) : (BookState.mk b a).asks = a := rfl

theorem addedOn_addLimit (s s2 : Side) (p : P) (q : Nat) (id : String)
    (rest : List (Op P)) :
    addedOn s (Op.addLimit s2 p q id :: rest) =
      (if s2 = s then q else 0) + addedOn s rest := rfl

theorem addedOn_market (s m : Side) (q : Nat) (id : String) (rest : List (Op P)) :
    addedOn s (Op.market m q id :: rest) = addedOn s rest := rfl

theorem runFrom_cons (st : BookState P) (op : Op P) (rest : List (Op P)) :
    runFrom st (op :: rest) = runFrom (runOp st op) rest := rfl

theorem runOp_addLimit (st : BookState P) (s : Side) (p : P) (q : Nat)
    (id : String) :
    runOp st (Op.addLimit s p q id) = (add_limit_order st s p q id).1 := rfl

theorem runOp_market (st : BookState P) (s : Side) (q : Nat) (id : String) :
    runOp st (Op.market s q id) = (process_market_order st s q id).2 := rfl

theorem runTrace_addLimit (st : BookState P) (s : Side) (p : P) (q : Nat)
    (id : String) (rest : List (Op P)) :
    runTrace st (Op.addLimit s p q id :: rest) =
      runTrace (add_limit_order st s p q id).1 rest := rfl

theorem runTrace_market_SELL_state (st : BookState P) (q : Nat) (id : String)
    (rest : List (Op P)) :
    (runTrace st (Op.market Side.SELL q id :: rest)).1 =
      (runTrace (process_market_order st Side.SELL q id).2 rest).1 := rfl

theorem runTrace_market_SELL_cb (st : BookState P) (q : Nat) (id : String)
    (rest : List (Op P)) :
    (runTrace st (Op.market Side.SELL q id :: rest)).2.1 =
      sumQ (process_market_order st Side.SELL q id).1 +
        (runTrace (process_market_order st Side.SELL q id).2 rest).2.1 := rfl

theorem runTrace_market_SELL_ca (st : BookState P) (q : Nat) (id : String)
    (rest : List (Op P)) :
    (runTrace st (Op.market Side.SELL q id :: rest)).2.2 =
      (runTrace (process_market_order st Side.SELL q id).2 rest).2.2 := rfl

theorem runTrace_market_BUY_state (st : BookState P) (q : Nat) (id : String)
    (rest : List (Op P)) :
    (runTrace st (Op.market Side.BUY q id :: rest)).1 =
      (runTrace (process_market_order st Side.BUY q id).2 rest).1 := rfl

theorem runTrace_market_BUY_cb (st : BookState P) (q : Nat) (id : String)
    (rest : List (Op P)) :
    (runTrace st (Op.market Side.BUY q id :: rest)).2.1 =
      (runTrace (process_market_order st Side.BUY q id).2 rest).2.1 := rfl

theorem runTrace_market_BUY_ca (st : BookState P) (q : Nat) (id : String)
    (rest : List (Op P)) :
    (runTrace st (Op.market Side.BUY q id :: rest)).2.2 =
      sumQ (process_market_order st Side.BUY q id).1 +
        (runTrace (process_market_order st Side.BUY q id).2 rest).2.2 := rfl

end StepEquations

/-! ## addToBook lemmas -/

section AddToBook

variable {P : Type} [LinearOrder P] [Zero P]

theorem sumTQ_pair_cons (k : P) (l : PriceLevel P) (b : SideBook P) :
    sumTQ ((k, l) :: b) = l.total_quantity + sumTQ b := by
  simp [sumTQ]

theorem mem_le_sumTQ (book : SideBook P) : ∀ e ∈ book,
    e.2.total_quantity ≤ sumTQ book := by
  induction book with
  | nil => simp
  | cons hd tl ih =>
    intro e he
    obtain ⟨k, l⟩ := hd
    rw [sumTQ_pair_cons]
    rcases List.mem_cons.mp he with h | h
    · subst h
      exact Nat.le_add_right l.total_quantity (sumTQ tl)
    · have := ih e h
      omega

theorem addToBook_nil (p : P) (q : Nat) :
    addToBook ([] : SideBook P) p q =
      [(p, (⟨p, 0, 0, 0⟩ : PriceLevel P).update_quantity (toInt32 q))] := by
  simp [addToBook, tryEmplace, applyAt]

theorem addToBook_cons (k : P) (l : PriceLevel P) (rest : SideBook P)
    (p : P) (q : Nat) :
    addToBook ((k, l) :: rest) p q =
      if p < k then
        (p, (⟨p, 0, 0, 0⟩ : PriceLevel P).update_quantity (toInt32 q)) ::
          (k, l) :: rest
      else if p = k then (k, l.update_quantity (toInt32 q)) :: rest
      else (k, l) :: addToBook rest p q := by
  simp only [addToBook, tryEmplace]
  split
  · simp [applyAt]
  · rename_i h1
    split
    · rename_i h2
      subst h2
      simp [applyAt]
    · rename_i h2
      have hk : ¬ (k = p) := fun hk => h2 hk.symm
      simp [applyAt, hk]

theorem update_zero_total (p : P) (q : Nat) (hq : q < U32) :
    ((⟨p, 0, 0, 0⟩ : PriceLevel P).update_quantity (toInt32 q)).total_quantity
      = q := by
  show wrap32 (((0 : Nat) : Int) + toInt32 q) = q
  rw [wrap32_add_toInt32]
  unfold U32 at hq ⊢
  omega

theorem update_add_total (l : PriceLevel P) (q : Nat)
    (h : l.total_quantity + q < U32) :
    (l.update_quantity (toInt32 q)).total_quantity = l.total_quantity + q := by
  rw [update_quantity_total, wrap32_add_toInt32]
  unfold U32 at h ⊢
  omega

theorem addToBook_sumTQ (book : SideBook P) (p : P) (q : Nat) (hq : q < U32)
    (hlvl : ∀ e ∈ book, e.1 = p → e.2.total_quantity + q < U32) :
    sumTQ (addToBook book p q) = sumTQ book + q := by
  induction book with
  | nil =>
    rw [addToBook_nil]
    simp only [sumTQ_pair_cons]
    rw [update_zero_total p q hq]
    simp [sumTQ]
  | cons hd tl ih =>
    obtain ⟨k, l⟩ := hd
    rw [addToBook_cons]
    by_cases h1 : p < k
    · rw [if_pos h1]
      simp only [sumTQ_pair_cons]
      rw [update_zero_total p q hq]
      omega
    · rw [if_neg h1]
      by_cases h2 : p = k
      · have hb : l.total_quantity + q < U32 :=
          hlvl (k, l) (by simp) h2.symm
        rw [if_pos h2]
        simp only [sumTQ_pair_cons]
        rw [update_add_total l q hb]
        omega
      · have hrec := ih (fun e he hep => hlvl e (by simp [he]) hep)
        rw [if_neg h2]
        simp only [sumTQ_pair_cons]
        rw [hrec]
        omega

theorem addToBook_pos (book : SideBook P) (p : P) (q : Nat)
    (hq : 0 < q) (hq32 : q < U32)
    (hpos : ∀ e ∈ book, 0 < e.2.total_quantity)
    (hlvl : ∀ e ∈ book, e.1 = p → e.2.total_quantity + q < U32) :
    ∀ e ∈ addToBook book p q, 0 < e.2.total_quantity := by
  induction book with
  | nil =>
    rw [addToBook_nil]
    intro e he
    rw [List.mem_singleton] at he
    subst he
    show 0 < ((⟨p, 0, 0, 0⟩ : PriceLevel P).update_quantity
      (toInt32 q)).total_quantity
    rw [update_zero_total p q hq32]
    exact hq
  | cons hd tl ih =>
    obtain ⟨k, l⟩ := hd
    rw [addToBook_cons]
    by_cases h1 : p < k
    · rw [if_pos h1]
      intro e he
      rcases List.mem_cons.mp he with h | h
      · subst h
        show 0 < ((⟨p, 0, 0, 0⟩ : PriceLevel P).update_quantity
          (toInt32 q)).total_quantity
        rw [update_zero_total p q hq32]
        exact hq
      · exact hpos e h
    · rw [if_neg h1]
      by_cases h2 : p = k
      · rw [if_pos h2]
        intro e he
        rcases List.mem_cons.mp he with h | h
        · subst h
          have hb : l.total_quantity + q < U32 := hlvl (k, l) (by simp) h2.symm
          show 0 < (l.update_quantity (toInt32 q)).total_quantity
          rw [update_add_total l q hb]
          omega
        · exact hpos e (by simp [h])
      · rw [if_neg h2]
        intro e he
        rcases List.mem_cons.mp he with h | h
        · subst h
          exact hpos (k, l) (by simp)
        · exact ih (fun e2 he2 => hpos e2 (by simp [he2]))
            (fun e2 he2 hep => hlvl e2 (by simp [he2]) hep) e h

theorem matchLoop_pos (id : String) (q : Nat) (book : SideBook P)
    (hpos : ∀ e ∈ book, 0 < e.2.total_quantity) :
    ∀ e ∈ (matchLoop id q book).2, 0 < e.2.total_quantity := by
  induction book generalizing q with
  | nil =>
    intro e he
    simp [matchLoop] at he
  | cons hd tl ih =>
    obtain ⟨k, lvl⟩ := hd
    have htl : ∀ e ∈ tl, 0 < e.2.total_quantity :=
      fun e he => hpos e (by simp [he])
    intro e he
    by_cases h0 : q = 0
    · subst h0
      simp only [matchLoop, if_pos rfl] at he
      exact hpos e he
    · simp only [matchLoop, if_neg h0] at he
      by_cases hcond : 0 < min q lvl.total_quantity
      · rw [if_pos hcond] at he
        split at he
        · exact ih _ htl e he
        · rename_i hz
          rcases List.mem_cons.mp he with h | h
          · subst h
            exact Nat.pos_of_ne_zero hz
          · exact ih _ htl e h
      · rw [if_neg hcond] at he
        exact ih _ htl e he

end AddToBook

/-! ## C4 — quantity conservation -/

section Conservation

variable {P : Type} [LinearOrder P] [Zero P]

theorem runTrace_conserve (ops : List (Op P)) :
    ∀ st : BookState P,
      sumTQ st.bids + addedOn Side.BUY ops < U32 →
      sumTQ st.asks + addedOn Side.SELL ops < U32 →
      (runTrace st ops).1 = runFrom st ops ∧
      sumTQ (runTrace st ops).1.bids + (runTrace st ops).2.1 =
        sumTQ st.bids + addedOn Side.BUY ops ∧
      sumTQ (runTrace st ops).1.asks + (runTrace st ops).2.2 =
        sumTQ st.asks + addedOn Side.SELL ops := by
  induction ops with
  | nil =>
    intro st hB hS
    simp [runTrace, runFrom, addedOn]
  | cons op rest ih =>
    intro st hB hS
    cases op with
    | addLimit s p q id =>
      rw [runTrace_addLimit, runFrom_cons, runOp_addLimit]
      cases s with
      | BUY =>
        have e1 : addedOn Side.BUY (Op.addLimit Side.BUY p q id :: rest) =
            q + addedOn Side.BUY rest := by
          rw [addedOn_addLimit, if_pos rfl]
        have e2 : addedOn Side.SELL (Op.addLimit Side.BUY p q id :: rest) =
            addedOn Side.SELL rest := by
          rw [addedOn_addLimit, if_neg (by decide), Nat.zero_add]
        rw [e1] at hB
        rw [e2] at hS
        rw [e1, e2, al_BUY_state]
        have hq : q < U32 := by omega
        have hsum : sumTQ (addToBook st.bids p q) = sumTQ st.bids + q := by
          apply addToBook_sumTQ _ _ _ hq
          intro e he _
          have := mem_le_sumTQ st.bids e he
          omega
        have hih := ih { st with bids := addToBook st.bids p q }
          (by simp only [mk_bids]; rw [hsum]; omega)
          (by simp only [mk_asks]; omega)
        simp only [mk_bids, mk_asks] at hih
        rw [hsum] at hih
        obtain ⟨hihs, hih1, hih2⟩ := hih
        exact ⟨hihs, by omega, by omega⟩
      | SELL =>
        have e1 : addedOn Side.BUY (Op.addLimit Side.SELL p q id :: rest) =
            addedOn Side.BUY rest := by
          rw [addedOn_addLimit, if_neg (by decide), Nat.zero_add]
        have e2 : addedOn Side.SELL (Op.addLimit Side.SELL p q id :: rest) =
            q + addedOn Side.SELL rest := by
          rw [addedOn_addLimit, if_pos rfl]
        rw [e1] at hB
        rw [e2] at hS
        rw [e1, e2, al_SELL_state]
        have hq : q < U32 := by omega
        have hsum : sumTQ (addToBook st.asks p q) = sumTQ st.asks + q := by
          apply addToBook_sumTQ _ _ _ hq
          intro e he _
          have := mem_le_sumTQ st.asks e he
          omega
        have hih := ih { st with asks := addToBook st.asks p q }
          (by simp only [mk_bids]; omega)
          (by simp only [mk_asks]; rw [hsum]; omega)
        simp only [mk_bids, mk_asks] at hih
        rw [hsum] at hih
        obtain ⟨hihs, hih1, hih2⟩ := hih
        exact ⟨hihs, by omega, by omega⟩
    | market s q id =>
      rw [addedOn_market] at hB hS
      cases s with
      | BUY =>
        rw [runTrace_market_BUY_state, runTrace_market_BUY_cb,
          runTrace_market_BUY_ca, runFrom_cons, runOp_market, pm_BUY_fst,
          pm_BUY_snd, addedOn_market, addedOn_market]
        have hml := matchLoop_sums (setId id) q st.asks
          (fun e he => by have := mem_le_sumTQ st.asks e he; omega)
        obtain ⟨hml1, hml2⟩ := hml
        have hih := ih { st with asks := (matchLoop (setId id) q st.asks).2 }
          (by simp only [mk_bids]; omega)
          (by simp only [mk_asks]; omega)
        simp only [mk_bids, mk_asks] at hih
        obtain ⟨hihs, hih1, hih2⟩ := hih
        exact ⟨hihs, by omega, by omega⟩
      | SELL =>
        rw [runTrace_market_SELL_state, runTrace_market_SELL_cb,
          runTrace_market_SELL_ca, runFrom_cons, runOp_market, pm_SELL_fst,
          pm_SELL_snd, addedOn_market, addedOn_market]
        have hml := matchLoop_sums (setId id) q st.bids
          (fun e he => by have := mem_le_sumTQ st.bids e he; omega)
        obtain ⟨hml1, hml2⟩ := hml
        have hih := ih { st with bids := (matchLoop (setId id) q st.bids).2 }
          (by simp only [mk_bids]; omega)
          (by simp only [mk_asks]; omega)
        simp only [mk_bids, mk_asks] at hih
        obtain ⟨hihs, hih1, hih2⟩ := hih
        exact ⟨hihs, by omega, by omega⟩

end Conservation

section C4C6

variable {P : Type} [LinearOrder P] [Zero P]

/-- Claim C4 counterexample: the conservation equality as stated fails
under `uint32_t` wraparound.  Two limit adds of `2^31` at the same bid
price leave the level with `total_quantity = 0` (the sum wrapped), so the
side total is 0 while added minus consumed is `2^32`. -/
theorem C4_counterexample :
    sumTQ (run [Op.addLimit Side.BUY (100 : Int) (2 ^ 31) "A",
        Op.addLimit Side.BUY 100 (2 ^ 31) "B"]).bids = 0 ∧
    addedOn Side.BUY [Op.addLimit Side.BUY (100 : Int) (2 ^ 31) "A",
        Op.addLimit Side.BUY 100 (2 ^ 31) "B"] -
      (runTrace (emptyBook : BookState Int)
        [Op.addLimit Side.BUY (100 : Int) (2 ^ 31) "A",
         Op.addLimit Side.BUY 100 (2 ^ 31) "B"]).2.1 = 2 ^ 32 ∧
    (0 : Nat) ≠ 2 ^ 32 := by
  refine ⟨rfl, rfl, by decide⟩

/-- Claim C6 counterexample: with both added quantities positive
(`2^31 > 0`) the same wraparound leaves a level with
`total_quantity = 0` resting in the bid book — the adds, not matching,
produced the zero, and the producer path never erases. -/
theorem C6_counterexample :
    (0 : Nat) < 2 ^ 31 ∧
    lookupLevel (sideBookOf (run
        [Op.addLimit Side.BUY (100 : Int) (2 ^ 31) "A",
         Op.addLimit Side.BUY 100 (2 ^ 31) "B"]) Side.BUY) 100 =
      some ⟨100, 0, 2, 0⟩ := by
  exact ⟨by decide, rfl⟩

/-- Claim C4: after any finite sequence of `add_limit_order` and
`process_market_order` operations (whose added quantities stay below the
`uint32_t` range, so that no counter wraps), each side book's total
resting quantity equals the quantity added on that side minus the matched
quantity consumed from that side. -/
theorem C4_quantity_conservation (ops : List (Op P))
    (hB : addedOn Side.BUY ops < U32) (hS : addedOn Side.SELL ops < U32) :
    (runTrace (emptyBook : BookState P) ops).1 = run ops ∧
    sumTQ (run ops).bids =
      addedOn Side.BUY ops - (runTrace (emptyBook : BookState P) ops).2.1 ∧
    (runTrace (emptyBook : BookState P) ops).2.1 ≤ addedOn Side.BUY ops ∧
    sumTQ (run ops).asks =
      addedOn Side.SELL ops - (runTrace (emptyBook : BookState P) ops).2.2 ∧
    (runTrace (emptyBook : BookState P) ops).2.2 ≤ addedOn Side.SELL ops := by
  have hempty_b : sumTQ (emptyBook : BookState P).bids = 0 := rfl
  have hempty_a : sumTQ (emptyBook : BookState P).asks = 0 := rfl
  have h := runTrace_conserve ops emptyBook (by rw [hempty_b]; omega)
    (by rw [hempty_a]; omega)
  obtain ⟨hs, h1, h2⟩ := h
  have hrun : runFrom (emptyBook : BookState P) ops = run ops := rfl
  rw [hrun] at hs
  rw [hs] at h1 h2
  rw [hempty_b] at h1
  rw [hempty_a] at h2
  exact ⟨hs, by omega, by omega, by omega, by omega⟩

/-- Witness for C4: after adding 10 on the bid side and consuming 4 of it
with a Sell market order, the bid book holds 10 - 4 = 6. -/
theorem C4_quantity_conservation_witness :
    sumTQ (run [Op.addLimit Side.BUY (100 : Int) 10 "A",
        Op.market Side.SELL 4 "M"]).bids =
      addedOn Side.BUY [Op.addLimit Side.BUY (100 : Int) 10 "A",
          Op.market Side.SELL 4 "M"] -
        (runTrace (emptyBook : BookState Int)
          [Op.addLimit Side.BUY (100 : Int) 10 "A",
           Op.market Side.SELL 4 "M"]).2.1 :=
  (C4_quantity_conservation _ (by decide) (by decide)).2.1

theorem runFrom_pos (ops : List (Op P)) :
    ∀ st : BookState P,
      (∀ s2 p2 q2 id2, Op.addLimit s2 p2 q2 id2 ∈ ops → 0 < q2) →
      sumTQ st.bids + addedOn Side.BUY ops < U32 →
      sumTQ st.asks + addedOn Side.SELL ops < U32 →
      (∀ e ∈ st.bids, 0 < e.2.total_quantity) →
      (∀ e ∈ st.asks, 0 < e.2.total_quantity) →
      (∀ e ∈ (runFrom st ops).bids, 0 < e.2.total_quantity) ∧
      (∀ e ∈ (runFrom st ops).asks, 0 < e.2.total_quantity) := by
  induction ops with
  | nil =>
    intro st _ _ _ hb ha
    exact ⟨hb, ha⟩
  | cons op rest ih =>
    intro st hq hB hS hb ha
    cases op with
    | addLimit s p q id =>
      have hq0 : 0 < q := hq s p q id (by simp)
      have hqrest : ∀ s2 p2 q2 id2, Op.addLimit s2 p2 q2 id2 ∈ rest → 0 < q2 :=
        fun s2 p2 q2 id2 hmem => hq s2 p2 q2 id2 (by simp [hmem])
      rw [runFrom_cons, runOp_addLimit]
      cases s with
      | BUY =>
        have e1 : addedOn Side.BUY (Op.addLimit Side.BUY p q id :: rest) =
            q + addedOn Side.BUY rest := by
          rw [addedOn_addLimit, if_pos rfl]
        have e2 : addedOn Side.SELL (Op.addLimit Side.BUY p q id :: rest) =
            addedOn Side.SELL rest := by
          rw [addedOn_addLimit, if_neg (by decide), Nat.zero_add]
        rw [e1] at hB
        rw [e2] at hS
        have hqU : q < U32 := by omega
        have hlvl : ∀ e ∈ st.bids, e.1 = p →
            e.2.total_quantity + q < U32 := by
          intro e he _
          have := mem_le_sumTQ st.bids e he
          omega
        have hsum := addToBook_sumTQ st.bids p q hqU hlvl
        rw [al_BUY_state]
        apply ih
        · exact hqrest
        · simp only [mk_bids]
          rw [hsum]
          omega
        · simp only [mk_asks]
          omega
        · simp only [mk_bids]
          exact addToBook_pos st.bids p q hq0 hqU hb hlvl
        · simp only [mk_asks]
          exact ha
      | SELL =>
        have e1 : addedOn Side.BUY (Op.addLimit Side.SELL p q id :: rest) =
            addedOn Side.BUY rest := by
          rw [addedOn_addLimit, if_neg (by decide), Nat.zero_add]
        have e2 : addedOn Side.SELL (Op.addLimit Side.SELL p q id :: rest) =
            q + addedOn Side.SELL rest := by
          rw [addedOn_addLimit, if_pos rfl]
        rw [e1] at hB
        rw [e2] at hS
        have hqU : q < U32 := by omega
        have hlvl : ∀ e ∈ st.asks, e.1 = p →
            e.2.total_quantity + q < U32 := by
          intro e he _
          have := mem_le_sumTQ st.asks e he
          omega
        have hsum := addToBook_sumTQ st.asks p q hqU hlvl
        rw [al_SELL_state]
        apply ih
        · exact hqrest
        · simp only [mk_bids]
          omega
        · simp only [mk_asks]
          rw [hsum]
          omega
        · simp only [mk_bids]
          exact hb
        · simp only [mk_asks]
          exact addToBook_pos st.asks p q hq0 hqU ha hlvl
    | market s q id =>
      have hqrest : ∀ s2 p2 q2 id2, Op.addLimit s2 p2 q2 id2 ∈ rest → 0 < q2 :=
        fun s2 p2 q2 id2 hmem => hq s2 p2 q2 id2 (by simp [hmem])
      rw [runFrom_cons, runOp_market]
      rw [addedOn_market] at hB
      rw [addedOn_market] at hS
      cases s with
      | BUY =>
        rw [pm_BUY_snd]
        have hml := matchLoop_sums (setId id) q st.asks
          (fun e he => by have := mem_le_sumTQ st.asks e he; omega)
        obtain ⟨hml1, hml2⟩ := hml
        apply ih
        · exact hqrest
        · simp only [mk_bids]
          omega
        · simp only [mk_asks]
          omega
        · simp only [mk_bids]
          exact hb
        · simp only [mk_asks]
          exact matchLoop_pos _ _ _ ha
      | SELL =>
        rw [pm_SELL_snd]
        have hml := matchLoop_sums (setId id) q st.bids
          (fun e he => by have := mem_le_sumTQ st.bids e he; omega)
        obtain ⟨hml1, hml2⟩ := hml
        apply ih
        · exact hqrest
        · simp only [mk_bids]
          omega
        · simp only [mk_asks]
          omega
        · simp only [mk_bids]
          exact matchLoop_pos _ _ _ hb
        · simp only [mk_asks]
          exact ha

/-- Claim C6: after any finite sequence of completed operations starting
from the empty book (every added limit order has quantity > 0 and the
added quantities stay below the `uint32_t` range), no level resting in
either side book has `total_quantity = 0` — a level drained to zero by a
match is erased within the same operation. -/
theorem C6_level_nonempty (ops : List (Op P))
    (hq : ∀ s p q id, Op.addLimit s p q id ∈ ops → 0 < q)
    (hB : addedOn Side.BUY ops < U32) (hS : addedOn Side.SELL ops < U32) :
    (∀ e ∈ (run ops).bids, 0 < e.2.total_quantity) ∧
    (∀ e ∈ (run ops).asks, 0 < e.2.total_quantity) := by
  have hempty_b : sumTQ (emptyBook : BookState P).bids = 0 := rfl
  have hempty_a : sumTQ (emptyBook : BookState P).asks = 0 := rfl
  exact runFrom_pos ops emptyBook hq (by rw [hempty_b]; omega)
    (by rw [hempty_a]; omega)
    (by intro e he; simp [emptyBook] at he)
    (by intro e he; simp [emptyBook] at he)

/-- Witness for C6: after an add of 5 at ask 100 and a Buy market order
for 3, the surviving ask level holds 2 > 0. -/
theorem C6_level_nonempty_witness :
    (∀ e ∈ (run [Op.addLimit Side.SELL (100 : Int) 5 "A",
        Op.market Side.BUY 3 "M"]).bids, 0 < e.2.total_quantity) ∧
    (∀ e ∈ (run [Op.addLimit Side.SELL (100 : Int) 5 "A",
        Op.market Side.BUY 3 "M"]).asks, 0 < e.2.total_quantity) :=
  C6_level_nonempty _
    (by
      intro s p q id hmem
      rcases List.mem_cons.mp hmem with h | h
      · cases h
        omega
      · rcases List.mem_cons.mp h with h2 | h2
        · exact absurd h2 (by simp)
        · exact absurd h2 (by simp))
    (by decide) (by decide)

end C4C6

/-! ## C8 — depth snapshot -/

section Depth

variable {P : Type} [LinearOrder P] [Zero P]

theorem insertS_mem {α : Type} (leb : α → α → Bool) (x : α) (l : List α) :
    ∀ z ∈ insertS leb x l, z = x ∨ z ∈ l := by
  induction l with
  | nil =>
    intro z hz
    rw [show insertS leb x [] = [x] from rfl, List.mem_singleton] at hz
    exact Or.inl hz
  | cons y ys ih =>
    intro z hz
    simp only [insertS] at hz
    split at hz
    · rcases List.mem_cons.mp hz with h | h
      · exact Or.inl h
      · exact Or.inr h
    · rcases List.mem_cons.mp hz with h | h
      · exact Or.inr (by simp [h])
      · rcases ih z h with h2 | h2
        · exact Or.inl h2
        · exact Or.inr (by simp [h2])

theorem insSort_mem {α : Type} (leb : α → α → Bool) (l : List α) :
    ∀ z ∈ insSort leb l, z ∈ l := by
  induction l with
  | nil =>
    intro z hz
    simp [insSort] at hz
  | cons y ys ih =>
    intro z hz
    simp only [insSort] at hz
    rcases insertS_mem leb y (insSort leb ys) z hz with h | h
    · simp [h]
    · simp [ih z h]

theorem insertS_pairwise {α : Type} (leb : α → α → Bool)
    (htot : ∀ a b, leb a b = true ∨ leb b a = true)
    (htrans : ∀ a b c, leb a b = true → leb b c = true → leb a c = true)
    (x : α) (l : List α) (hl : l.Pairwise (fun a b => leb a b = true)) :
    (insertS leb x l).Pairwise (fun a b => leb a b = true) := by
  induction l with
  | nil => simp [insertS]
  | cons y ys ih =>
    simp only [insertS]
    split
    · rename_i hxy
      refine List.Pairwise.cons ?_ hl
      intro z hz
      rcases List.mem_cons.mp hz with h | h
      · subst h
        exact hxy
      · exact htrans x y z hxy ((List.pairwise_cons.mp hl).1 z h)
    · rename_i hxy
      have hyx : leb y x = true := by
        rcases htot x y with h | h
        · exact absurd h hxy
        · exact h
      have hl2 := List.pairwise_cons.mp hl
      refine List.Pairwise.cons ?_ (ih hl2.2)
      intro z hz
      rcases insertS_mem leb x ys z hz with h | h
      · subst h
        exact hyx
      · exact hl2.1 z h

theorem insSort_pairwise {α : Type} (leb : α → α → Bool)
    (htot : ∀ a b, leb a b = true ∨ leb b a = true)
    (htrans : ∀ a b c, leb a b = true → leb b c = true → leb a c = true)
    (l : List α) :
    (insSort leb l).Pairwise (fun a b => leb a b = true) := by
  induction l with
  | nil => simp [insSort]
  | cons y ys ih =>
    simp only [insSort]
    exact insertS_pairwise leb htot htrans y (insSort leb ys) ih

theorem sortBids_pairwise (book : SideBook P) :
    (insSort (fun a b : P × PriceLevel P => decide (b.1 ≤ a.1)) book).Pairwise
      (fun a b : P × PriceLevel P => b.1 ≤ a.1) := by
  have h := insSort_pairwise
    (fun a b : P × PriceLevel P => decide (b.1 ≤ a.1))
    (fun a b => by
      rcases le_total b.1 a.1 with h | h
      · exact Or.inl (decide_eq_true h)
      · exact Or.inr (decide_eq_true h))
    (fun a b c hab hbc =>
      decide_eq_true (le_trans (of_decide_eq_true hbc) (of_decide_eq_true hab)))
    book
  exact h.imp (fun hab => of_decide_eq_true hab)

theorem sortAsks_pairwise (book : SideBook P) :
    (insSort (fun a b : P × PriceLevel P => decide (a.1 ≤ b.1)) book).Pairwise
      (fun a b : P × PriceLevel P => a.1 ≤ b.1) := by
  have h := insSort_pairwise
    (fun a b : P × PriceLevel P => decide (a.1 ≤ b.1))
    (fun a b => by
      rcases le_total a.1 b.1 with h | h
      · exact Or.inl (decide_eq_true h)
      · exact Or.inr (decide_eq_true h))
    (fun a b c hab hbc =>
      decide_eq_true (le_trans (of_decide_eq_true hab) (of_decide_eq_true hbc)))
    book
  exact h.imp (fun hab => of_decide_eq_true hab)

theorem get_depth_BUY (st : BookState P) (n : Nat) :
    get_depth st Side.BUY n =
      ((insSort (fun a b : P × PriceLevel P => decide (b.1 ≤ a.1))
          st.bids).take n).map (fun e => e.2) := rfl

theorem get_depth_SELL (st : BookState P) (n : Nat) :
    get_depth st Side.SELL n =
      ((insSort (fun a b : P × PriceLevel P => decide (a.1 ≤ b.1))
          st.asks).take n).map (fun e => e.2) := rfl

/-- Claim C8: `get_depth side levels` returns at most `levels` records
copied from the requested side book, best-first: weakly decreasing prices
for Buy, weakly increasing for Sell.  (In this functional embedding the
snapshot is a value and the book state is an unchanged input, so
decoupling from later mutations is immediate.)  The hypothesis states the
book invariant that each stored level's `price` field equals its map key,
which holds for every book the engine builds. -/
theorem C8_get_depth (st : BookState P) (side : Side) (n : Nat)
    (hkm : ∀ e ∈ sideBookOf st side, e.2.price = e.1) :
    (get_depth st side n).length ≤ n ∧
    (∀ l ∈ get_depth st side n, ∃ e ∈ sideBookOf st side, e.2 = l) ∧
    (side = Side.BUY →
      ((get_depth st side n).map (fun l => l.price)).Pairwise
        (fun a b : P => b ≤ a)) ∧
    (side = Side.SELL →
      ((get_depth st side n).map (fun l => l.price)).Pairwise
        (fun a b : P => a ≤ b)) := by
  cases side with
  | BUY =>
    have hkmb : ∀ e ∈ st.bids, e.2.price = e.1 := hkm
    refine ⟨?_, ?_, ?_, fun h => absurd h (by decide)⟩
    · rw [get_depth_BUY, List.length_map]
      exact List.length_take_le n _
    · intro l hl
      rw [get_depth_BUY] at hl
      rcases List.mem_map.mp hl with ⟨e, he, rfl⟩
      exact ⟨e, insSort_mem _ _ e ((List.take_sublist n _).subset he), rfl⟩
    · intro _
      rw [get_depth_BUY, List.map_map, List.pairwise_map]
      have hp2 := List.Pairwise.sublist (List.take_sublist n _)
        (sortBids_pairwise st.bids)
      refine List.Pairwise.imp_of_mem ?_ hp2
      intro a b ha hb hrel
      have ha2 : a.2.price = a.1 :=
        hkmb a (insSort_mem _ _ a ((List.take_sublist n _).subset ha))
      have hb2 : b.2.price = b.1 :=
        hkmb b (insSort_mem _ _ b ((List.take_sublist n _).subset hb))
      show b.2.price ≤ a.2.price
      rw [ha2, hb2]
      exact hrel
  | SELL =>
    have hkma : ∀ e ∈ st.asks, e.2.price = e.1 := hkm
    refine ⟨?_, ?_, fun h => absurd h (by decide), ?_⟩
    · rw [get_depth_SELL, List.length_map]
      exact List.length_take_le n _
    · intro l hl
      rw [get_depth_SELL] at hl
      rcases List.mem_map.mp hl with ⟨e, he, rfl⟩
      exact ⟨e, insSort_mem _ _ e ((List.take_sublist n _).subset he), rfl⟩
    · intro _
      rw [get_depth_SELL, List.map_map, List.pairwise_map]
      have hp2 := List.Pairwise.sublist (List.take_sublist n _)
        (sortAsks_pairwise st.asks)
      refine List.Pairwise.imp_of_mem ?_ hp2
      intro a b ha hb hrel
      have ha2 : a.2.price = a.1 :=
        hkma a (insSort_mem _ _ a ((List.take_sublist n _).subset ha))
      have hb2 : b.2.price = b.1 :=
        hkma b (insSort_mem _ _ b ((List.take_sublist n _).subset hb))
      show a.2.price ≤ b.2.price
      rw [ha2, hb2]
      exact hrel

/-- Witness for C8: the two-level bid book yields a depth snapshot with
weakly decreasing prices. -/
theorem C8_get_depth_witness :
    ((get_depth (⟨[((99 : Int), ⟨99, 5, 1, 0⟩), (100, ⟨100, 7, 2, 0⟩)],
        []⟩ : BookState Int) Side.BUY 5).map (fun l => l.price)).Pairwise
      (fun a b : Int => b ≤ a) :=
  ((C8_get_depth (⟨[((99 : Int), ⟨99, 5, 1, 0⟩), (100, ⟨100, 7, 2, 0⟩)],
      []⟩ : BookState Int) Side.BUY 5 (by decide)).2.2.1) rfl

end Depth

/-! ## C9 — batch quantity updater vs scalar semantics -/

section Batch

variable {P : Type} [Zero P]

theorem vecStore_cons_none (heap : LevelHeap P) (x y : Nat)
    (rest : List (Option Nat × Nat × Nat)) :
    vecStore heap ((none, x, y) :: rest) = vecStore heap rest := rfl

theorem vecStore_cons_some (heap : LevelHeap P) (j x y : Nat)
    (rest : List (Option Nat × Nat × Nat)) :
    vecStore heap ((some j, x, y) :: rest) =
      vecStore (heap.set j
        { heap.getD j dfltLevel with total_quantity := x, order_count := y })
        rest := rfl

theorem scalarRun_cons_none (heap : LevelHeap P) (d : Int)
    (rest : List (Option Nat × Int)) :
    scalarRun heap ((none, d) :: rest) = scalarRun heap rest := rfl

theorem scalarRun_cons_some (heap : LevelHeap P) (j : Nat) (d : Int)
    (rest : List (Option Nat × Int)) :
    scalarRun heap ((some j, d) :: rest) =
      scalarRun (heap.set j ((heap.getD j dfltLevel).update_quantity d)) rest :=
  rfl

theorem getD_set_ne (heap : LevelHeap P) (i j : Nat) (v : PriceLevel P)
    (hij : i ≠ j) : (heap.set i v).getD j dfltLevel = heap.getD j dfltLevel := by
  rw [List.getD_eq_getElem?_getD, List.getD_eq_getElem?_getD,
    List.getElem?_set_ne hij]

theorem vecStore_eq_scalarRun (lanes : List (Option Nat × Int)) :
    ∀ heap : LevelHeap P, (lanes.filterMap Prod.fst).Nodup →
      vecStore heap (lanes.map (laneVals heap)) = scalarRun heap lanes := by
  induction lanes with
  | nil =>
    intro heap _
    rfl
  | cons hd tl ih =>
    intro heap hnd
    obtain ⟨h, d⟩ := hd
    cases h with
    | none =>
      simp only [List.map_cons, laneVals, loadTQ, loadOC]
      rw [vecStore_cons_none, scalarRun_cons_none]
      apply ih heap
      simpa [List.filterMap_cons] using hnd
    | some j =>
      simp only [List.map_cons, laneVals, loadTQ, loadOC]
      rw [vecStore_cons_some, scalarRun_cons_some]
      have hnd2 : j ∉ tl.filterMap Prod.fst ∧ (tl.filterMap Prod.fst).Nodup := by
        rw [show ((some j, d) :: tl).filterMap Prod.fst =
            j :: tl.filterMap Prod.fst from rfl, List.nodup_cons] at hnd
        exact hnd
      have hv : ({ heap.getD j dfltLevel with
          total_quantity :=
            wrap32 (((heap.getD j dfltLevel).total_quantity : Int) + d)
          order_count := ((heap.getD j dfltLevel).order_count + 1) % U32 } :
            PriceLevel P) = (heap.getD j dfltLevel).update_quantity d := rfl
      rw [hv]
      have hmap : tl.map (laneVals heap) =
          tl.map (laneVals
            (heap.set j ((heap.getD j dfltLevel).update_quantity d))) := by
        apply List.map_congr_left
        intro a ha
        obtain ⟨h2, d2⟩ := a
        cases h2 with
        | none => rfl
        | some j2 =>
          have hne : j ≠ j2 := by
            intro heq
            subst heq
            exact hnd2.1 (List.mem_filterMap.mpr ⟨(some j, d2), ha, rfl⟩)
          simp only [laneVals, loadTQ, loadOC]
          rw [getD_set_ne _ _ _ _ hne]
      rw [hmap]
      exact ih _ hnd2.2

theorem single_tq_eq (t : Nat) (d : Int) :
    (t + wrap32 d) % U32 = wrap32 ((t : Int) + d) := by
  unfold wrap32 U32
  omega

/-- Claim C9 counterexample: the vectorized paths are claimed pointwise
equal to the scalar semantics for every batch and every `int32_t` delta.
Two concrete refutations: (a) a batch whose two lanes alias the same
level handle — the vector path loads both lanes before storing, so one of
the two `+1` updates is lost; (b) `process_single_update` with the
negative delta `-3` — the sign-extended high lane adds `0xFFFFFFFF` to
`order_count`, decrementing it instead of incrementing. -/
theorem C9_counterexample :
    (process_quantity_updates (P := Int) [⟨1, 10, 0, 0⟩]
        [some 0, some 0, none, none] [1, 1, 0, 0] 2 ≠
      scalar_quantity_updates (P := Int) [⟨1, 10, 0, 0⟩]
        [some 0, some 0, none, none] [1, 1, 0, 0] 2) ∧
    process_single_update (some (⟨1, 10, 5, 0⟩ : PriceLevel Int)) (-3) ≠
      some ((⟨1, 10, 5, 0⟩ : PriceLevel Int).update_quantity (-3)) := by
  constructor
  · decide
  · decide

/-- Claim C9 (amended): the four-wide batch updater computes exactly the
scalar per-pair semantics whenever the non-null handles of the batch are
pairwise distinct (with aliased handles the load-all-then-store-all
vector schedule loses updates); `process_single_update` agrees with the
scalar `update_quantity` for every delta in `[0, 2^31)`, while for a
negative delta it adds `2^32 - 1` to `order_count` (a decrement modulo
`2^32`) instead of 1, `total_quantity` still receiving the scalar value;
null handles are no-ops in every path. -/
theorem C9_batch_scalar (heap : LevelHeap P) (handles : List (Option Nat))
    (deltas : List Int) (count : Nat)
    (hnd : (((List.range count).map fun i =>
        (handles.getD i none, deltas.getD i 0)).filterMap Prod.fst).Nodup) :
    process_quantity_updates heap handles deltas count =
      scalar_quantity_updates heap handles deltas count ∧
    (∀ (l : PriceLevel P) (d : Int), 0 ≤ d → d < 2 ^ 31 →
      process_single_update (some l) d = some (l.update_quantity d)) ∧
    (∀ (l : PriceLevel P) (d : Int), -(2 ^ 31) ≤ d → d < 0 →
      process_single_update (some l) d =
        some { l with
          total_quantity := wrap32 ((l.total_quantity : Int) + d)
          order_count := (l.order_count + (U32 - 1)) % U32 }) ∧
    (∀ d : Int, process_single_update (none : Option (PriceLevel P)) d = none) := by
  refine ⟨?_, ?_, ?_, fun _ => rfl⟩
  · exact vecStore_eq_scalarRun _ heap hnd
  · intro l d h0 h31
    have hhigh : (((d % (U64 : Int)).toNat) >>> 32) ||| 1 = 1 := by
      have h1 : (d % (U64 : Int)).toNat = d.toNat := by
        unfold U64
        omega
      rw [h1, Nat.shiftRight_eq_div_pow]
      have h2 : d.toNat / 2 ^ 32 = 0 := by omega
      rw [h2]
      decide
    simp only [process_single_update, PriceLevel.update_quantity,
      Option.some.injEq, PriceLevel.mk.injEq, hhigh]
    exact ⟨trivial, single_tq_eq l.total_quantity d, trivial, trivial⟩
  · intro l d hlo hneg
    have hhigh : (((d % (U64 : Int)).toNat) >>> 32) ||| 1 = U32 - 1 := by
      have h1 : (d % (U64 : Int)).toNat = (d + 2 ^ 64).toNat := by
        unfold U64
        omega
      rw [h1, Nat.shiftRight_eq_div_pow]
      have h2 : (d + 2 ^ 64).toNat / 2 ^ 32 = 2 ^ 32 - 1 := by omega
      rw [h2]
      unfold U32
      decide
    simp only [process_single_update, Option.some.injEq, PriceLevel.mk.injEq,
      hhigh]
    exact ⟨trivial, single_tq_eq l.total_quantity d, trivial, trivial⟩

/-- Witness for C9 at a two-lane batch with distinct handles and a
negative second delta: the vector path equals the scalar path. -/
theorem C9_batch_scalar_witness :
    process_quantity_updates (P := Int) [⟨1, 10, 0, 0⟩, ⟨2, 20, 1, 0⟩]
        [some 0, some 1, none, none] [3, -5, 0, 0] 2 =
      scalar_quantity_updates (P := Int) [⟨1, 10, 0, 0⟩, ⟨2, 20, 1, 0⟩]
        [some 0, some 1, none, none] [3, -5, 0, 0] 2 :=
  (C9_batch_scalar _ _ _ _ (by decide)).1

end Batch

/-! ## Book representation invariants -/

section Invariants

variable {P : Type} [LinearOrder P] [Zero P]

theorem lookupLevel_eq_none_iff (book : SideBook P) (p : P) :
    lookupLevel book p = none ↔ p ∉ book.map Prod.fst := by
  induction book with
  | nil => simp [lookupLevel]
  | cons hd tl ih =>
    obtain ⟨k, l⟩ := hd
    simp only [lookupLevel, List.map_cons, List.mem_cons]
    by_cases h : k = p
    · rw [if_pos h]
      constructor
      · intro hc
        exact absurd hc (by simp)
      · intro hc
        exact absurd (Or.inl h.symm) hc
    · rw [if_neg h]
      rw [ih]
      constructor
      · intro hc hmem
        rcases hmem with h2 | h2
        · exact h h2.symm
        · exact hc h2
      · intro hc h2
        exact hc (Or.inr h2)

theorem SortedKeys.nodupKeys {book : SideBook P} (hs : SortedKeys book) :
    (book.map Prod.fst).Nodup :=
  hs.imp (fun hab => ne_of_lt hab)

theorem addToBook_keys (book : SideBook P) (p : P) (q : Nat) :
    ∀ x ∈ (addToBook book p q).map Prod.fst,
      x = p ∨ x ∈ book.map Prod.fst := by
  induction book with
  | nil =>
    rw [addToBook_nil]
    intro x hx
    simp at hx
    exact Or.inl hx
  | cons hd tl ih =>
    obtain ⟨k, l⟩ := hd
    rw [addToBook_cons]
    by_cases h1 : p < k
    · rw [if_pos h1]
      intro x hx
      simp only [List.map_cons, List.mem_cons] at hx
      rcases hx with h | h | h
      · exact Or.inl h
      · exact Or.inr (by simp [h])
      · exact Or.inr (by simp [h])
    · rw [if_neg h1]
      by_cases h2 : p = k
      · rw [if_pos h2]
        intro x hx
        simp only [List.map_cons, List.mem_cons] at hx
        rcases hx with h | h
        · exact Or.inr (by simp [h])
        · exact Or.inr (by simp [h])
      · rw [if_neg h2]
        intro x hx
        simp only [List.map_cons, List.mem_cons] at hx
        rcases hx with h | h
        · exact Or.inr (by simp [h])
        · rcases ih x h with h3 | h3
          · exact Or.inl h3
          · exact Or.inr (by simp [h3])

theorem addToBook_sorted (book : SideBook P) (p : P) (q : Nat)
    (hs : SortedKeys book) : SortedKeys (addToBook book p q) := by
  induction book with
  | nil =>
    rw [addToBook_nil]
    simp [SortedKeys]
  | cons hd tl ih =>
    obtain ⟨k, l⟩ := hd
    rw [addToBook_cons]
    unfold SortedKeys at *
    simp only [List.map_cons] at hs
    have hs2 := List.pairwise_cons.mp hs
    by_cases h1 : p < k
    · rw [if_pos h1]
      simp only [List.map_cons]
      refine List.Pairwise.cons ?_ hs
      intro x hx
      rcases List.mem_cons.mp hx with h | h
      · subst h
        exact h1
      · exact lt_trans h1 (hs2.1 x h)
    · rw [if_neg h1]
      by_cases h2 : p = k
      · rw [if_pos h2]
        simp only [List.map_cons]
        exact List.Pairwise.cons hs2.1 hs2.2
      · rw [if_neg h2]
        simp only [List.map_cons]
        refine List.Pairwise.cons ?_ (ih hs2.2)
        intro x hx
        rcases addToBook_keys tl p q x hx with h | h
        · subst h
          exact lt_of_le_of_ne (le_of_not_lt h1) (fun hh => h2 hh.symm)
        · exact hs2.1 x h

theorem addToBook_keysMatch (book : SideBook P) (p : P) (q : Nat)
    (hkm : KeysMatch book) : KeysMatch (addToBook book p q) := by
  induction book with
  | nil =>
    rw [addToBook_nil]
    intro e he
    rw [List.mem_singleton] at he
    subst he
    show ((⟨p, 0, 0, 0⟩ : PriceLevel P).update_quantity (toInt32 q)).price = p
    rw [update_quantity_price]
  | cons hd tl ih =>
    obtain ⟨k, l⟩ := hd
    have hkhead : l.price = k := hkm (k, l) (by simp)
    have hktl : KeysMatch tl := fun e he => hkm e (by simp [he])
    rw [addToBook_cons]
    by_cases h1 : p < k
    · rw [if_pos h1]
      intro e he
      rcases List.mem_cons.mp he with h | h
      · subst h
        show ((⟨p, 0, 0, 0⟩ : PriceLevel P).update_quantity (toInt32 q)).price = p
        rw [update_quantity_price]
      · exact hkm e h
    · rw [if_neg h1]
      by_cases h2 : p = k
      · rw [if_pos h2]
        intro e he
        rcases List.mem_cons.mp he with h | h
        · subst h
          show (l.update_quantity (toInt32 q)).price = k
          rw [update_quantity_price, hkhead]
        · exact hktl e h
      · rw [if_neg h2]
        intro e he
        rcases List.mem_cons.mp he with h | h
        · subst h
          exact hkhead
        · exact ih hktl e h

theorem matchLoop_keys_sublist (id : String) (q : Nat) (book : SideBook P) :
    ((matchLoop id q book).2.map Prod.fst).Sublist (book.map Prod.fst) := by
  induction book generalizing q with
  | nil => simp [matchLoop]
  | cons hd tl ih =>
    obtain ⟨k, lvl⟩ := hd
    by_cases h0 : q = 0
    · subst h0
      exact List.Sublist.refl _
    · simp only [matchLoop, if_neg h0]
      by_cases hpos : 0 < min q lvl.total_quantity
      · rw [if_pos hpos]
        split
        · exact (ih _).trans (List.sublist_cons_self _ _)
        · simp only [List.map_cons]
          exact List.Sublist.cons₂ k (ih _)
      · rw [if_neg hpos]
        exact (ih q).trans (List.sublist_cons_self _ _)

theorem matchLoop_sorted (id : String) (q : Nat) (book : SideBook P)
    (hs : SortedKeys book) : SortedKeys (matchLoop id q book).2 :=
  List.Pairwise.sublist (matchLoop_keys_sublist id q book) hs

theorem matchLoop_keysMatch (id : String) (q : Nat) (book : SideBook P)
    (hkm : KeysMatch book) : KeysMatch (matchLoop id q book).2 := by
  induction book generalizing q with
  | nil =>
    intro e he
    simp [matchLoop] at he
  | cons hd tl ih =>
    obtain ⟨k, lvl⟩ := hd
    have hkhead : lvl.price = k := hkm (k, lvl) (by simp)
    have hktl : KeysMatch tl := fun e he => hkm e (by simp [he])
    intro e he
    by_cases h0 : q = 0
    · subst h0
      rw [show matchLoop id 0 ((k, lvl) :: tl) = ([], (k, lvl) :: tl) from rfl] at he
      exact hkm e he
    · simp only [matchLoop, if_neg h0] at he
      by_cases hpos : 0 < min q lvl.total_quantity
      · rw [if_pos hpos] at he
        split at he
        · exact ih _ hktl e he
        · rcases List.mem_cons.mp he with h | h
          · subst h
            show (lvl.update_quantity _).price = k
            rw [update_quantity_price, hkhead]
          · exact ih _ hktl e h
      · rw [if_neg hpos] at he
        exact ih _ hktl e he

theorem runOp_bookInv (st : BookState P) (op : Op P) (h : BookInv st) :
    BookInv (runOp st op) := by
  obtain ⟨hsb, hsa, hkb, hka⟩ := h
  cases op with
  | addLimit s p q id =>
    rw [runOp_addLimit]
    cases s with
    | BUY =>
      rw [al_BUY_state]
      exact ⟨addToBook_sorted _ _ _ hsb, hsa, addToBook_keysMatch _ _ _ hkb, hka⟩
    | SELL =>
      rw [al_SELL_state]
      exact ⟨hsb, addToBook_sorted _ _ _ hsa, hkb, addToBook_keysMatch _ _ _ hka⟩
  | market s q id =>
    rw [runOp_market]
    cases s with
    | BUY =>
      rw [pm_BUY_snd]
      exact ⟨hsb, matchLoop_sorted _ _ _ hsa, hkb, matchLoop_keysMatch _ _ _ hka⟩
    | SELL =>
      rw [pm_SELL_snd]
      exact ⟨matchLoop_sorted _ _ _ hsb, hsa, matchLoop_keysMatch _ _ _ hkb, hka⟩

end Invariants

/-! ## Effect of one operation on the level at a fixed key -/

section AtKey

variable {P : Type} [LinearOrder P] [Zero P]

theorem lookupLevel_cons (k : P) (l : PriceLevel P) (tl : SideBook P) (p : P) :
    lookupLevel ((k, l) :: tl) p =
      if k = p then some l else lookupLevel tl p := rfl

theorem any_price_false {ms : List (MatchResult P)} {p : P}
    (h : ∀ m ∈ ms, m.price ≠ p) :
    ms.any (fun mr => decide (mr.price = p)) = false := by
  rw [List.any_eq_false]
  intro m hm
  simp [h m hm]

theorem any_price_true {ms : List (MatchResult P)} {p : P}
    (h : ∃ m ∈ ms, m.price = p) :
    ms.any (fun mr => decide (mr.price = p)) = true := by
  rw [List.any_eq_true]
  obtain ⟨m, hm, hp⟩ := h
  exact ⟨m, hm, by simp [hp]⟩

theorem addToBook_at_key (p : P) (q : Nat) (book : SideBook P) :
    SortedKeys book →
    (lookupLevel book p = none →
      lookupLevel (addToBook book p q) p =
        some ((⟨p, 0, 0, 0⟩ : PriceLevel P).update_quantity (toInt32 q))) ∧
    (∀ l, lookupLevel book p = some l →
      lookupLevel (addToBook book p q) p =
        some (l.update_quantity (toInt32 q))) ∧
    (∀ p2, p2 ≠ p →
      lookupLevel (addToBook book p q) p2 = lookupLevel book p2) := by
  induction book with
  | nil =>
    intro _
    rw [addToBook_nil]
    refine ⟨fun _ => ?_, fun l hl => ?_, fun p2 hp2 => ?_⟩
    · rw [lookupLevel_cons, if_pos rfl]
    · simp [lookupLevel] at hl
    · rw [lookupLevel_cons, if_neg (fun hh => hp2 hh.symm)]
  | cons hd tl ih =>
    intro hs
    obtain ⟨k, l⟩ := hd
    have hs0 := hs
    unfold SortedKeys at hs0
    simp only [List.map_cons] at hs0
    have hs2 := List.pairwise_cons.mp hs0
    have ihtl := ih hs2.2
    rw [addToBook_cons]
    by_cases h1 : p < k
    · rw [if_pos h1]
      have hnone : lookupLevel ((k, l) :: tl) p = none := by
        rw [lookupLevel_eq_none_iff]
        intro hmem
        rcases List.mem_cons.mp hmem with h | h
        · exact absurd (h ▸ h1) (lt_irrefl _)
        · exact absurd (lt_trans h1 (hs2.1 p h)) (lt_irrefl _)
      refine ⟨fun _ => ?_, fun l2 hl2 => ?_, fun p2 hp2 => ?_⟩
      · rw [lookupLevel_cons, if_pos rfl]
      · rw [hnone] at hl2
        simp at hl2
      · rw [lookupLevel_cons, if_neg (fun hh => hp2 hh.symm)]
    · rw [if_neg h1]
      by_cases h2 : p = k
      · rw [if_pos h2]
        refine ⟨fun hcontr => ?_, fun l2 hl2 => ?_, fun p2 hp2 => ?_⟩
        · rw [lookupLevel_cons, if_pos h2.symm] at hcontr
          simp at hcontr
        · rw [lookupLevel_cons, if_pos h2.symm, Option.some.injEq] at hl2
          rw [lookupLevel_cons, if_pos h2.symm, Option.some.injEq]
          rw [hl2]
        · have hkp2 : ¬ (k = p2) := fun hh => hp2 ((h2.trans hh).symm)
          rw [lookupLevel_cons, lookupLevel_cons, if_neg hkp2, if_neg hkp2]
      · rw [if_neg h2]
        have hk_ne : ¬ (k = p) := fun hh => h2 hh.symm
        refine ⟨fun hn => ?_, fun l2 hl2 => ?_, fun p2 hp2 => ?_⟩
        · rw [lookupLevel_cons, if_neg hk_ne] at hn
          rw [lookupLevel_cons, if_neg hk_ne]
          exact ihtl.1 hn
        · rw [lookupLevel_cons, if_neg hk_ne] at hl2
          rw [lookupLevel_cons, if_neg hk_ne]
          exact ihtl.2.1 l2 hl2
        · by_cases hk2 : k = p2
          · rw [lookupLevel_cons, lookupLevel_cons, if_pos hk2, if_pos hk2]
          · rw [lookupLevel_cons, lookupLevel_cons, if_neg hk2, if_neg hk2]
            exact ihtl.2.2 p2 hp2

theorem matchLoop_at_key (id : String) (p : P) (book : SideBook P) :
    ∀ q : Nat, KeysMatch book → (book.map Prod.fst).Nodup →
    (lookupLevel book p = none →
      lookupLevel (matchLoop id q book).2 p = none ∧
      ∀ m ∈ (matchLoop id q book).1, m.price ≠ p) ∧
    (∀ l, lookupLevel book p = some l →
      (lookupLevel (matchLoop id q book).2 p = some l ∧
        ∀ m ∈ (matchLoop id q book).1, m.price ≠ p) ∨
      ((∃ l2, lookupLevel (matchLoop id q book).2 p = some l2 ∧
          l2.order_count = (l.order_count + 1) % U32) ∧
        ∃ m ∈ (matchLoop id q book).1, m.price = p) ∨
      lookupLevel (matchLoop id q book).2 p = none) := by
  induction book with
  | nil =>
    intro q _ _
    refine ⟨fun _ => ⟨rfl, ?_⟩, fun l hl => ?_⟩
    · intro m hm
      exact absurd hm (List.not_mem_nil m)
    · simp [lookupLevel] at hl
  | cons hd tl ih =>
    intro q hkm hnd
    obtain ⟨k, lvl⟩ := hd
    have hkhead : lvl.price = k := hkm (k, lvl) (by simp)
    have hkmtl : KeysMatch tl := fun e he => hkm e (by simp [he])
    have hnd2 : k ∉ tl.map Prod.fst ∧ (tl.map Prod.fst).Nodup :=
      List.nodup_cons.mp (by simpa using hnd)
    by_cases h0 : q = 0
    · subst h0
      refine ⟨fun hn => ⟨hn, ?_⟩, fun l hl => Or.inl ⟨hl, ?_⟩⟩
      · intro m hm
        exact absurd hm (List.not_mem_nil m)
      · intro m hm
        exact absurd hm (List.not_mem_nil m)
    · by_cases hpos : 0 < min q lvl.total_quantity
      · by_cases hz : (lvl.update_quantity
            (-(min q lvl.total_quantity : Int))).total_quantity = 0
        · -- fill recorded and the level is erased
          have heq1 : (matchLoop id q ((k, lvl) :: tl)).1 =
              ({ quantity := min q lvl.total_quantity, price := lvl.price
                 counterparty_id := setCounterpartyId id } : MatchResult P) ::
                (matchLoop id (q - min q lvl.total_quantity) tl).1 := by
            simp only [matchLoop, if_neg h0]
            rw [if_pos hpos, if_pos hz]
          have heq2 : (matchLoop id q ((k, lvl) :: tl)).2 =
              (matchLoop id (q - min q lvl.total_quantity) tl).2 := by
            simp only [matchLoop, if_neg h0]
            rw [if_pos hpos, if_pos hz]
          rw [heq1, heq2]
          have ihq := ih (q - min q lvl.total_quantity) hkmtl hnd2.2
          by_cases hkp : k = p
          · have hnp : lookupLevel tl p = none := by
              rw [lookupLevel_eq_none_iff]
              intro hmem
              exact hnd2.1 (hkp ▸ hmem)
            have hrest := ihq.1 hnp
            refine ⟨fun hn => ?_, fun l hl => Or.inr (Or.inr hrest.1)⟩
            rw [lookupLevel_cons, if_pos hkp] at hn
            simp at hn
          · have hmp : lvl.price ≠ p := by
              rw [hkhead]
              exact hkp
            refine ⟨fun hn => ?_, fun l hl => ?_⟩
            · rw [lookupLevel_cons, if_neg hkp] at hn
              have h2 := ihq.1 hn
              refine ⟨h2.1, ?_⟩
              intro m hm
              rcases List.mem_cons.mp hm with h | h
              · subst h
                exact hmp
              · exact h2.2 m h
            · rw [lookupLevel_cons, if_neg hkp] at hl
              rcases ihq.2 l hl with hcase | hcase | hcase
              · refine Or.inl ⟨hcase.1, ?_⟩
                intro m hm
                rcases List.mem_cons.mp hm with h | h
                · subst h
                  exact hmp
                · exact hcase.2 m h
              · refine Or.inr (Or.inl ⟨hcase.1, ?_⟩)
                obtain ⟨m, hm, hmp2⟩ := hcase.2
                exact ⟨m, by simp [hm], hmp2⟩
              · exact Or.inr (Or.inr hcase)
        · -- fill recorded, the level survives with order_count + 1
          have heq1 : (matchLoop id q ((k, lvl) :: tl)).1 =
              ({ quantity := min q lvl.total_quantity, price := lvl.price
                 counterparty_id := setCounterpartyId id } : MatchResult P) ::
                (matchLoop id (q - min q lvl.total_quantity) tl).1 := by
            simp only [matchLoop, if_neg h0]
            rw [if_pos hpos, if_neg hz]
          have heq2 : (matchLoop id q ((k, lvl) :: tl)).2 =
              (k, lvl.update_quantity (-(min q lvl.total_quantity : Int))) ::
                (matchLoop id (q - min q lvl.total_quantity) tl).2 := by
            simp only [matchLoop, if_neg h0]
            rw [if_pos hpos, if_neg hz]
          rw [heq1, heq2]
          have ihq := ih (q - min q lvl.total_quantity) hkmtl hnd2.2
          by_cases hkp : k = p
          · refine ⟨fun hn => ?_, fun l hl => ?_⟩
            · rw [lookupLevel_cons, if_pos hkp] at hn
              simp at hn
            · rw [lookupLevel_cons, if_pos hkp, Option.some.injEq] at hl
              refine Or.inr (Or.inl
                ⟨⟨lvl.update_quantity (-(min q lvl.total_quantity : Int)),
                  ?_, ?_⟩, ?_⟩)
              · rw [lookupLevel_cons, if_pos hkp]
              · rw [update_quantity_count, hl]
              · refine ⟨_, List.mem_cons_self _ _, ?_⟩
                show lvl.price = p
                rw [hkhead]
                exact hkp
          · have hmp : lvl.price ≠ p := by
              rw [hkhead]
              exact hkp
            refine ⟨fun hn => ?_, fun l hl => ?_⟩
            · rw [lookupLevel_cons, if_neg hkp] at hn
              have h2 := ihq.1 hn
              refine ⟨?_, ?_⟩
              · rw [lookupLevel_cons, if_neg hkp]
                exact h2.1
              · intro m hm
                rcases List.mem_cons.mp hm with h | h
                · subst h
                  exact hmp
                · exact h2.2 m h
            · rw [lookupLevel_cons, if_neg hkp] at hl
              rcases ihq.2 l hl with hcase | hcase | hcase
              · refine Or.inl ⟨?_, ?_⟩
                · rw [lookupLevel_cons, if_neg hkp]
                  exact hcase.1
                · intro m hm
                  rcases List.mem_cons.mp hm with h | h
                  · subst h
                    exact hmp
                  · exact hcase.2 m h
              · refine Or.inr (Or.inl ⟨?_, ?_⟩)
                · obtain ⟨l2, hl2, hoc⟩ := hcase.1
                  refine ⟨l2, ?_, hoc⟩
                  rw [lookupLevel_cons, if_neg hkp]
                  exact hl2
                · obtain ⟨m, hm, hmp2⟩ := hcase.2
                  exact ⟨m, by simp [hm], hmp2⟩
              · refine Or.inr (Or.inr ?_)
                rw [lookupLevel_cons, if_neg hkp]
                exact hcase
      · -- a zero-quantity level in iteration order: erased without a fill
        have heq : matchLoop id q ((k, lvl) :: tl) = matchLoop id q tl := by
          simp only [matchLoop, if_neg h0]
          rw [if_neg hpos]
        rw [heq]
        have ihq := ih q hkmtl hnd2.2
        by_cases hkp : k = p
        · have hnp : lookupLevel tl p = none := by
            rw [lookupLevel_eq_none_iff]
            intro hmem
            exact hnd2.1 (hkp ▸ hmem)
          have hrest := ihq.1 hnp
          exact ⟨fun hn => hrest, fun l hl => Or.inr (Or.inr hrest.1)⟩
        · refine ⟨fun hn => ?_, fun l hl => ?_⟩
          · rw [lookupLevel_cons, if_neg hkp] at hn
            exact ihq.1 hn
          · rw [lookupLevel_cons, if_neg hkp] at hl
            exact ihq.2 l hl

end AtKey

/-! ## C10 — order_count accounting -/

section GhostRun

variable {P : Type} [LinearOrder P] [Zero P]

theorem al_state_side (st : BookState P) (s : Side) (p : P) (q : Nat)
    (id : String) :
    sideBookOf (add_limit_order st s p q id).1 s =
      addToBook (sideBookOf st s) p q := by
  cases s
  · rfl
  · rfl

theorem al_state_other (st : BookState P) (s2 s : Side) (p : P) (q : Nat)
    (id : String) (h : s2 ≠ s) :
    sideBookOf (add_limit_order st s2 p q id).1 s = sideBookOf st s := by
  cases s2 <;> cases s
  · exact absurd rfl h
  · rfl
  · rfl
  · exact absurd rfl h

theorem pm_state_opposite (st : BookState P) (m : Side) (q : Nat)
    (id : String) :
    sideBookOf (process_market_order st m q id).2 (oppositeSide m) =
      (matchLoop (setId id) q (sideBookOf st (oppositeSide m))).2 := by
  cases m
  · rfl
  · rfl

theorem pm_state_same (st : BookState P) (m : Side) (q : Nat) (id : String) :
    sideBookOf (process_market_order st m q id).2 m = sideBookOf st m := by
  cases m
  · rfl
  · rfl

theorem pm_fst (st : BookState P) (m : Side) (q : Nat) (id : String) :
    (process_market_order st m q id).1 =
      (matchLoop (setId id) q (sideBookOf st (oppositeSide m))).1 := by
  cases m
  · rfl
  · rfl

theorem side_eq_of_opp_ne (m s : Side) (h : oppositeSide m ≠ s) : m = s := by
  cases m <;> cases s
  · rfl
  · exact absurd rfl h
  · exact absurd rfl h
  · rfl

theorem ghostRun_addLimit (s : Side) (p : P) (st : BookState P) (g : Nat × Nat)
    (s2 : Side) (p2 : P) (q : Nat) (id : String) (rest : List (Op P)) :
    ghostRun s p st g (Op.addLimit s2 p2 q id :: rest) =
      ghostRun s p (add_limit_order st s2 p2 q id).1
        (if s2 = s ∧ p2 = p then
          match lookupLevel (sideBookOf st s) p with
          | some _ => (g.1 + 1, g.2)
          | none => (1, 0)
        else g) rest := rfl

theorem ghostRun_market (s : Side) (p : P) (st : BookState P) (g : Nat × Nat)
    (m : Side) (q : Nat) (id : String) (rest : List (Op P)) :
    ghostRun s p st g (Op.market m q id :: rest) =
      ghostRun s p (process_market_order st m q id).2
        (if oppositeSide m = s then
          match lookupLevel
              (sideBookOf (process_market_order st m q id).2 s) p with
          | some _ =>
              if (process_market_order st m q id).1.any
                  (fun mr => decide (mr.price = p)) then (g.1, g.2 + 1)
              else g
          | none => (0, 0)
        else g) rest := rfl

theorem ghostRun_spec (s : Side) (p : P) (ops : List (Op P)) :
    ∀ (st : BookState P) (g : Nat × Nat),
      BookInv st →
      g.1 + g.2 + ops.length < U32 →
      (∀ l, lookupLevel (sideBookOf st s) p = some l →
        l.order_count = g.1 + g.2) →
      (ghostRun s p st g ops).1 = runFrom st ops ∧
      ∀ l, lookupLevel (sideBookOf (ghostRun s p st g ops).1 s) p = some l →
        l.order_count =
          (ghostRun s p st g ops).2.1 + (ghostRun s p st g ops).2.2 := by
  induction ops with
  | nil =>
    intro st g _ _ hcount
    exact ⟨rfl, hcount⟩
  | cons op rest ih =>
    intro st g hinv hlen hcount
    rw [List.length_cons] at hlen
    cases op with
    | addLimit s2 p2 q2 id2 =>
      rw [ghostRun_addLimit, runFrom_cons, runOp_addLimit]
      have hinv2 : BookInv (add_limit_order st s2 p2 q2 id2).1 := by
        have h := runOp_bookInv st (Op.addLimit s2 p2 q2 id2) hinv
        rw [runOp_addLimit] at h
        exact h
      by_cases hsp : s2 = s ∧ p2 = p
      · rw [if_pos hsp]
        have hsorted : SortedKeys (sideBookOf st s) := by
          obtain ⟨hsb, hsa, _, _⟩ := hinv
          cases s
          · exact hsb
          · exact hsa
        have hside : sideBookOf (add_limit_order st s2 p2 q2 id2).1 s =
            addToBook (sideBookOf st s) p q2 := by
          rw [hsp.1, hsp.2]
          exact al_state_side st s p q2 id2
        cases hlook : lookupLevel (sideBookOf st s) p with
        | some l =>
          refine ih _ (g.1 + 1, g.2) hinv2 ?_ ?_
          · show g.1 + 1 + g.2 + rest.length < U32
            omega
          · intro l2 hl2
            show l2.order_count = g.1 + 1 + g.2
            rw [hside] at hl2
            have hupd :=
              (addToBook_at_key p q2 (sideBookOf st s) hsorted).2.1 l hlook
            rw [hupd, Option.some.injEq] at hl2
            rw [← hl2, update_quantity_count, hcount l hlook]
            rw [Nat.mod_eq_of_lt (by omega)]
            omega
        | none =>
          refine ih _ (1, 0) hinv2 ?_ ?_
          · show 1 + 0 + rest.length < U32
            omega
          · intro l2 hl2
            show l2.order_count = 1 + 0
            rw [hside] at hl2
            have hupd := (addToBook_at_key p q2 (sideBookOf st s) hsorted).1 hlook
            rw [hupd, Option.some.injEq] at hl2
            rw [← hl2, update_quantity_count]
            show (0 + 1) % U32 = 1 + 0
            rw [Nat.mod_eq_of_lt (by omega)]
      · rw [if_neg hsp]
        refine ih _ g hinv2 (by omega) ?_
        intro l2 hl2
        have hsame : lookupLevel
            (sideBookOf (add_limit_order st s2 p2 q2 id2).1 s) p =
            lookupLevel (sideBookOf st s) p := by
          by_cases hs2 : s2 = s
          · have hp2 : ¬ (p2 = p) := fun hh => hsp ⟨hs2, hh⟩
            have hsorted : SortedKeys (sideBookOf st s) := by
              obtain ⟨hsb, hsa, _, _⟩ := hinv
              cases s
              · exact hsb
              · exact hsa
            rw [hs2, al_state_side st s p2 q2 id2]
            exact (addToBook_at_key p2 q2 (sideBookOf st s) hsorted).2.2 p
              (fun hh => hp2 hh.symm)
          · rw [al_state_other st s2 s p2 q2 id2 hs2]
        rw [hsame] at hl2
        exact hcount l2 hl2
    | market m q2 id2 =>
      rw [ghostRun_market, runFrom_cons, runOp_market]
      have hinv2 : BookInv (process_market_order st m q2 id2).2 := by
        have h := runOp_bookInv st (Op.market m q2 id2) hinv
        rw [runOp_market] at h
        exact h
      by_cases hopp : oppositeSide m = s
      · rw [if_pos hopp]
        have hbookeq : sideBookOf (process_market_order st m q2 id2).2 s =
            (matchLoop (setId id2) q2 (sideBookOf st s)).2 := by
          rw [← hopp]
          exact pm_state_opposite st m q2 id2
        have hmseq : (process_market_order st m q2 id2).1 =
            (matchLoop (setId id2) q2 (sideBookOf st s)).1 := by
          rw [← hopp]
          exact pm_fst st m q2 id2
        have hkmS : KeysMatch (sideBookOf st s) := by
          obtain ⟨_, _, hkb, hka⟩ := hinv
          cases s
          · exact hkb
          · exact hka
        have hndS : ((sideBookOf st s).map Prod.fst).Nodup := by
          obtain ⟨hsb, hsa, _, _⟩ := hinv
          cases s
          · exact hsb.nodupKeys
          · exact hsa.nodupKeys
        have hak := matchLoop_at_key (setId id2) p (sideBookOf st s) q2 hkmS hndS
        cases hlook : lookupLevel (sideBookOf st s) p with
        | none =>
          have h2 := hak.1 hlook
          rw [hbookeq, h2.1]
          refine ih _ (0, 0) hinv2 ?_ ?_
          · show 0 + 0 + rest.length < U32
            omega
          · intro l2 hl2
            rw [hbookeq, h2.1] at hl2
            simp at hl2
        | some l =>
          have hcl := hcount l hlook
          rcases hak.2 l hlook with hcase | hcase | hcase
          · have hany : (process_market_order st m q2 id2).1.any
                (fun mr => decide (mr.price = p)) = false := by
              rw [hmseq]
              exact any_price_false hcase.2
            rw [hbookeq, hcase.1, hany]
            refine ih _ g hinv2 (by omega) ?_
            intro l2 hl2
            rw [hbookeq, hcase.1, Option.some.injEq] at hl2
            rw [← hl2]
            exact hcl
          · obtain ⟨⟨l2x, hl2x, hoc⟩, hex⟩ := hcase
            have hany : (process_market_order st m q2 id2).1.any
                (fun mr => decide (mr.price = p)) = true := by
              rw [hmseq]
              exact any_price_true hex
            rw [hbookeq, hl2x, hany]
            refine ih _ (g.1, g.2 + 1) hinv2 ?_ ?_
            · show g.1 + (g.2 + 1) + rest.length < U32
              omega
            · intro l3 hl3
              show l3.order_count = g.1 + (g.2 + 1)
              rw [hbookeq, hl2x, Option.some.injEq] at hl3
              rw [← hl3, hoc, hcl]
              rw [Nat.mod_eq_of_lt (by omega)]
              omega
          · rw [hbookeq, hcase]
            refine ih _ (0, 0) hinv2 ?_ ?_
            · show 0 + 0 + rest.length < U32
              omega
            · intro l2 hl2
              rw [hbookeq, hcase] at hl2
              simp at hl2
      · rw [if_neg hopp]
        have hms : m = s := side_eq_of_opp_ne m s hopp
        refine ih _ g hinv2 (by omega) ?_
        intro l2 hl2
        rw [hms, pm_state_same] at hl2
        exact hcount l2 hl2

end GhostRun

section C10

variable {P : Type} [LinearOrder P] [Zero P]

/-- Claim C10 counterexample: the claim counts limit adds and partial
market fills over the whole operation sequence.  After
`[add Sell 5@100, market Buy 5 (drains and erases the level),
add Sell 7@100]` the re-created level at ask 100 has `order_count = 1`,
while the whole sequence contains 2 adds at that key and 0 fills that
left the level resting: 1 ≠ 2 + 0. -/
theorem C10_counterexample :
    (lookupLevel (sideBookOf (run c10ops) Side.SELL) (100 : Int)).map
        (fun l => l.order_count) = some 1 ∧
    addsAt Side.SELL (100 : Int) c10ops +
      survivingFillsAt Side.SELL (100 : Int) emptyBook c10ops = 2 ∧
    (1 : Nat) ≠ 2 := by
  refine ⟨?_, ?_, ?_⟩
  · rfl
  · rfl
  · decide

/-- Claim C10 (amended): `update_quantity` adds 1 to `order_count` for
every delta — negative market-fill deltas included — and consequently,
for any (side, price) key and any operation sequence from the empty book
(shorter than `2^32`, so the counter cannot wrap), the `order_count` of
the level resting at that key equals the number of limit adds at that key
plus the number of market fills that partially consumed it, both counted
since the level was last created.  (The instrumented `ghostRun` keeps
exactly these two counters, restarting them when the level is erased or
re-created; the restart is what refutes the whole-sequence count of the
original claim.) -/
theorem C10_order_count_accounting (s : Side) (p : P) (ops : List (Op P))
    (hlen : ops.length < U32) :
    (∀ (l : PriceLevel P) (d : Int),
      (l.update_quantity d).order_count = (l.order_count + 1) % U32) ∧
    (ghostRun s p emptyBook (0, 0) ops).1 = run ops ∧
    ∀ l, lookupLevel (sideBookOf (run ops) s) p = some l →
      l.order_count =
        (ghostRun s p emptyBook (0, 0) ops).2.1 +
          (ghostRun s p emptyBook (0, 0) ops).2.2 := by
  have hinv : BookInv (emptyBook : BookState P) := by
    refine ⟨List.Pairwise.nil, List.Pairwise.nil, ?_, ?_⟩
    · intro e he
      exact absurd he (List.not_mem_nil e)
    · intro e he
      exact absurd he (List.not_mem_nil e)
  have hcount0 : ∀ l,
      lookupLevel (sideBookOf (emptyBook : BookState P) s) p = some l →
      l.order_count = (0 : Nat) + 0 := by
    intro l hl
    cases s
    · simp [lookupLevel, sideBookOf, emptyBook] at hl
    · simp [lookupLevel, sideBookOf, emptyBook] at hl
  have h := ghostRun_spec s p ops emptyBook (0, 0) hinv
    (by show 0 + 0 + ops.length < U32; omega) hcount0
  have hrun : runFrom (emptyBook : BookState P) ops = run ops := rfl
  rw [hrun] at h
  refine ⟨fun l d => update_quantity_count l d, h.1, ?_⟩
  intro l hl
  apply h.2 l
  rw [h.1]
  exact hl

/-- Witness for C10 at the concrete erase-and-re-create sequence: the
level resting at ask 100 in the final book is exactly
`{price 100, quantity 7, order_count 1}`, and its order_count equals the
since-creation counters (1 add, 0 fills). -/
theorem C10_order_count_accounting_witness :
    (⟨100, 7, 1, 0⟩ : PriceLevel Int).order_count =
      (ghostRun Side.SELL (100 : Int) emptyBook (0, 0) c10ops).2.1 +
        (ghostRun Side.SELL (100 : Int) emptyBook (0, 0) c10ops).2.2 :=
  (C10_order_count_accounting Side.SELL 100 c10ops (by decide)).2.2
    ⟨100, 7, 1, 0⟩ rfl

end C10

end HPOrderBook
